import Mathlib

/-!
# Verification of the repo2text tree / selection / serialization core

Shallow embedding of the core of the repository-packing application:

* `buildTree`, `buildAsciiIndex`, `formatRepoOutput`, the default-selection
  loop of `handleFetch` and the directory branch of `handleToggle`
  (source file `src/unnamed/part_000`),
* `sortTreeItems` (the sorting comparator of the service module in
  `src/unnamed/part_000`),
* `getSelectionStatus` (source file `src/components/FileTree.tsx`),
* the data shapes of `src/types.ts`.

JavaScript objects used as string-keyed maps are modelled as association
lists in insertion order (assignment to an existing key replaces the value
in place, assignment to a fresh key appends).  JavaScript string methods
are modelled by executable functions over `String.data`:
`String.prototype.split` by `splitSegs`, `Array.prototype.join('/')` by
`joinPath`, `String.prototype.startsWith` by `strStartsWith`,
`String.prototype.toLowerCase` by `lowerStr` (the code only compares ASCII
extension names), and `String.prototype.localeCompare` — an
environment-dependent collation — by code-point order `localeCompare`.
-/

/-- `'blob' | 'tree'` of `types.ts` (`GitHubItem.type`, `TreeNode.type`). -/
inductive NType where
  | blob
  | tree
deriving DecidableEq

/-- `GitHubItem` of `types.ts`; the fields `mode` and `size` are never read
by the embedded code and are omitted. -/
structure GitHubItem where
  path : String
  type : NType
  sha : String
  url : String
deriving DecidableEq

/-- `TreeNode` of `types.ts`; `children` is the insertion-ordered
string-keyed object map. -/
inductive TreeNode : Type where
  | mk (name path : String) (type : NType) (sha url : String)
      (children : List (String × TreeNode)) : TreeNode

def TreeNode.name : TreeNode → String
  | .mk nm _ _ _ _ _ => nm

def TreeNode.path : TreeNode → String
  | .mk _ p _ _ _ _ => p

def TreeNode.type : TreeNode → NType
  | .mk _ _ ty _ _ _ => ty

def TreeNode.sha : TreeNode → String
  | .mk _ _ _ sh _ _ => sh

def TreeNode.url : TreeNode → String
  | .mk _ _ _ _ u _ => u

def TreeNode.children : TreeNode → List (String × TreeNode)
  | .mk _ _ _ _ _ cs => cs

/-- `SelectionState` of `types.ts`: a string-keyed object map of booleans. -/
abbrev SelMap := List (String × Bool)

/-- `'text' | 'image'` of `types.ts` (`FileContent.type`). -/
inductive CType where
  | text
  | image
deriving DecidableEq

/-- `FileContent` of `types.ts`. -/
structure FileContent where
  path : String
  text : Option String
  dataUrl : Option String
  url : String
  type : CType
  mimeType : Option String
deriving DecidableEq

/-- `RepoDetails` of `types.ts`. -/
structure RepoDetails where
  owner : String
  repo : String
  ref : Option String
  path : Option String
deriving DecidableEq

/-- The `'txt' | 'md'` format argument of `formatRepoOutput`. -/
inductive OutFormat where
  | txt
  | md
deriving DecidableEq

/-! ## String primitives (models of the JavaScript string methods used) -/

/-- `String.prototype.split(sep)` over the character list: `splitSegs sep s.data`
is the list of chunks between occurrences of `sep` (so `"".split` gives `[""]`
and empty segments from doubled separators are kept, as in JavaScript). -/
def splitSegs (sep : Char) : List Char → List (List Char)
  | [] => [[]]
  | c :: rest =>
    let acc := splitSegs sep rest
    if c = sep then [] :: acc
    else
      match acc with
      | a :: tail => (c :: a) :: tail
      | [] => [[c]]

/-- `path.split('/')`. -/
def splitPath (s : String) : List String :=
  (splitSegs '/' s.data).map String.mk

/-- `parts.join('/')` (`Array.prototype.join` with separator `/`). -/
def joinPath : List String → String
  | [] => ""
  | [x] => x
  | x :: rest => x ++ "/" ++ joinPath rest

/-- `p.split('.').pop() || ''`: the chunk after the last dot; `split` never
returns an empty array, so `pop` always yields a string, and `|| ''` maps the
empty string to itself. -/
def lastDotSeg (p : String) : String :=
  String.mk ((splitSegs '.' p.data).getLastD [])

/-- `String.prototype.toLowerCase` (the code only lowercases ASCII extension
names). -/
def lowerStr (s : String) : String :=
  String.mk (s.data.map Char.toLower)

/-- `s.startsWith (pre)` — `String.prototype.startsWith`. -/
def strStartsWith (s pre : String) : Bool :=
  pre.data.isPrefixOf s.data

/-- Number of newline characters in a string; the printed line count of an
ASCII-tree rendering, each printed node line ending in `"\n"`. -/
def countNL (s : String) : Nat :=
  s.data.count '\n'

/-- Code-point comparison of character lists, yielding the JavaScript
comparator convention (negative / zero / positive). -/
def lexCmp : List Char → List Char → Int
  | [], [] => 0
  | [], _ :: _ => -1
  | _ :: _, [] => 1
  | a :: as, b :: bs =>
    if a < b then -1
    else if b < a then 1
    else lexCmp as bs

/-- Model of `String.prototype.localeCompare` (locale collation modelled as
code-point order; the comparator structure around it is what is verified). -/
def localeCompare (a b : String) : Int :=
  lexCmp a.data b.data

/-! ## Selection maps (JavaScript object maps) -/

/-- `m[k]`: first binding of `k`, `none` for a missing key (`undefined`). -/
def lookupSel : SelMap → String → Option Bool
  | [], _ => none
  | (k, v) :: rest, key => if k = key then some v else lookupSel rest key

/-- `m[k] = v`: replace the value of an existing key in place, append a fresh
key at the end (JavaScript object insertion-order semantics). -/
def setSel : SelMap → String → Bool → SelMap
  | [], key, v => [(key, v)]
  | (k, w) :: rest, key, v =>
    if k = key then (key, v) :: rest else (k, w) :: setSel rest key v

/-- JavaScript truthiness of `m[k]` for a boolean-valued map: `undefined`
and `false` are falsy. -/
def truthy : Option Bool → Bool
  | some b => b
  | none => false

/-- `Object.keys m` in insertion order. -/
def selKeys (m : SelMap) : List String :=
  m.map Prod.fst

/-! ## `buildTree` (src/unnamed/part_000, lines 33–54) -/

/-- `current.children[part]` (an existing child object is always truthy). -/
def lookupChild : List (String × TreeNode) → String → Option TreeNode
  | [], _ => none
  | (k, v) :: rest, key => if k = key then some v else lookupChild rest key

/-- `current.children[part] = node`: replace in place or append. -/
def setChild : List (String × TreeNode) → String → TreeNode → List (String × TreeNode)
  | [], key, v => [(key, v)]
  | (k, w) :: rest, key, v =>
    if k = key then (key, v) :: rest else (k, w) :: setChild rest key v

/-- The `parts.forEach((part, index) => ...)` walk of `buildTree` for one
item.  `done` is the list of segments already consumed (so the current
`index` is `done.length`, the node path of a fresh child is
`parts.slice(0, index + 1).join('/') = joinPath (done ++ [part])`, and
`index === parts.length - 1` is `rest.isEmpty`).  Mutation of the walked
child through the `current` reference becomes replacing the child by the
recursively updated child. -/
def insertEntry (item : GitHubItem) : TreeNode → List String → List String → TreeNode
  | n, _, [] => n
  | .mk nm p ty sh u cs, done, part :: rest =>
    let isLast := rest.isEmpty
    let child :=
      match lookupChild cs part with
      | some c => c
      | none =>
        .mk part (joinPath (done ++ [part]))
          (if isLast then item.type else .tree)
          (if isLast then item.sha else "")
          (if isLast then item.url else "") []
    let child' := insertEntry item child (done ++ [part]) rest
    .mk nm p ty sh u (setChild cs part child')

/-- The synthetic root `{ name: 'root', path: '', type: 'tree', sha: '', url: '', children: {} }`. -/
def rootNode : TreeNode :=
  .mk "root" "" .tree "" "" []

/-- `buildTree` (src/unnamed/part_000, lines 33–54). -/
def buildTree (items : List GitHubItem) : TreeNode :=
  items.foldl (fun t item => insertEntry item t [] (splitPath item.path)) rootNode

/-- Walk a tree along a segment list (the node reached by following
`children` keys); the node "at a path" used by the specification. -/
def findNode : TreeNode → List String → Option TreeNode
  | t, [] => some t
  | .mk _ _ _ _ _ cs, seg :: rest =>
    match lookupChild cs seg with
    | some c => findNode c rest
    | none => none

/-! ## `getSelectionStatus` (src/components/FileTree.tsx, lines 46–58) -/

/-- The tri-state `'checked' | 'unchecked' | 'indeterminate'`. -/
inductive SelStatus where
  | checked
  | unchecked
  | indeterminate
deriving DecidableEq

mutual

/-- `getSelectionStatus` of `FileTree.tsx`: files read the map truthiness,
a childless node is `'unchecked'`, otherwise the child statuses are folded
with the all-checked / all-unchecked tests. -/
def getSelectionStatus (selection : SelMap) : TreeNode → SelStatus
  | .mk _ p ty _ _ cs =>
    if ty = .blob then
      if truthy (lookupSel selection p) then .checked else .unchecked
    else if cs.isEmpty then .unchecked
    else
      let statuses := statusList selection cs
      if statuses.all (· == SelStatus.checked) then .checked
      else if statuses.all (· == SelStatus.unchecked) then .unchecked
      else .indeterminate

/-- `childrenArr.map(child => getSelectionStatus(child))`. -/
def statusList (selection : SelMap) : List (String × TreeNode) → List SelStatus
  | [] => []
  | c :: rest => getSelectionStatus selection c.2 :: statusList selection rest

end

/-! ## `handleToggle`, directory branch (src/unnamed/part_000, lines 166–193) -/

/-- The filter predicate of `handleToggle`:
`p === path || p.startsWith(path + '/')`. -/
def matchesSubPath (path p : String) : Bool :=
  p == path || strStartsWith p (path ++ "/")

/-- `isCurrentlySelected`: every existing map key at or beneath `path`
is truthy (`Object.keys(prev).filter(...).every(p => prev[p])`). -/
def isCurrentlySelected (prev : SelMap) (path : String) : Bool :=
  ((selKeys prev).filter (fun p => matchesSubPath path p)).all
    (fun p => truthy (lookupSel prev p))

mutual

/-- `toggleChildren`: write `targetValue` for this node if it is a file,
then recurse into every child. -/
def toggleChildren (targetValue : Bool) : TreeNode → SelMap → SelMap
  | .mk _ p ty _ _ cs, newState =>
    let newState := if ty = .blob then setSel newState p targetValue else newState
    toggleChildrenList targetValue cs newState

/-- `Object.values(node.children).forEach(child => toggleChildren(child, v))`. -/
def toggleChildrenList (targetValue : Bool) : List (String × TreeNode) → SelMap → SelMap
  | [], m => m
  | c :: rest, m => toggleChildrenList targetValue rest (toggleChildren targetValue c.2 m)

end

mutual

/-- `findAndToggle`: at the first node whose `path` field equals the target
path, run `toggleChildren`; otherwise search the children left to right with
the short-circuiting `Array.prototype.some`. -/
def findAndToggle (path : String) (targetValue : Bool) : TreeNode → SelMap → Bool × SelMap
  | .mk nm p ty sh u cs, newState =>
    if p = path then (true, toggleChildren targetValue (.mk nm p ty sh u cs) newState)
    else findAndToggleList path targetValue cs newState

/-- `Object.values(node.children).some(child => findAndToggle(child))`. -/
def findAndToggleList (path : String) (targetValue : Bool) :
    List (String × TreeNode) → SelMap → Bool × SelMap
  | [], m => (false, m)
  | c :: rest, m =>
    match findAndToggle path targetValue c.2 m with
    | (true, m') => (true, m')
    | (false, m') => findAndToggleList path targetValue rest m'

end

/-- The directory branch (`isFile = false`) of `handleToggle`:
compute `isCurrentlySelected` from the previous map, then
`findAndToggle(treeData)` with target `!isCurrentlySelected`; when
`treeData` is `null` the copied map is returned unchanged. -/
def toggleSubtree (treeData : Option TreeNode) (prev : SelMap) (path : String) : SelMap :=
  let isCur := isCurrentlySelected prev path
  match treeData with
  | some t => (findAndToggle path (!isCur) t prev).2
  | none => prev

/-! ## Default selection (src/unnamed/part_000, lines 31 and 147–157) -/

/-- `COMMON_EXTENSIONS` (src/unnamed/part_000, line 31). -/
def COMMON_EXTENSIONS : List String :=
  ["js", "ts", "jsx", "tsx", "py", "java", "cpp", "h", "html", "css", "md",
   "json", "txt", "go", "rs", "php", "rb", "sql", "yaml", "yml", "toml"]

/-- `item.path.split('.').pop()?.toLowerCase() || ''`. -/
def extOf (p : String) : String :=
  lowerStr (lastDotSeg p)

/-- The `initialSelection` loop of `handleFetch` (lines 147–157): every blob
gets `COMMON_EXTENSIONS.has(ext)`; tree items only touch the expansion set. -/
def defaultSelection (items : List GitHubItem) : SelMap :=
  items.foldl
    (fun sel item =>
      if item.type = .blob then
        setSel sel item.path (COMMON_EXTENSIONS.contains (extOf item.path))
      else sel)
    []

/-! ## `buildAsciiIndex` (src/unnamed/part_000, lines 56–71) -/

mutual

/-- `buildAsciiIndex(node, prefix, isLast)`: a node named `'root'` prints
nothing itself and renders its children with an empty prefix; any other node
prints `prefix + connector + name + "\n"` and then its children. -/
def buildAsciiIndex : TreeNode → String → Bool → String
  | .mk nm _ _ _ _ cs, pre, isLast =>
    if nm = "root" then asciiList cs ""
    else
      let connector := if isLast then "└── " else "├── "
      let childPre := pre ++ (if isLast then "    " else "│   ")
      pre ++ connector ++ nm ++ "\n" ++ asciiList cs childPre

/-- `children.map((child, i) => buildAsciiIndex(child, pre, i === children.length - 1)).join('')`:
the last-sibling flag of position `i` is emptiness of the remaining tail. -/
def asciiList : List (String × TreeNode) → String → String
  | [], _ => ""
  | c :: rest, pre => buildAsciiIndex c.2 pre rest.isEmpty ++ asciiList rest pre

end

/-! ## `sortTreeItems` (src/unnamed/part_000, lines 639–656) -/

/-- The comparator loop of `sortTreeItems` over the two segment lists:
walking both lists in step is the `for (i = 0; i < minLen; i++)` loop, the
remaining tails at the first difference are the `i < parts.length - 1`
deepness tests, and falling off the shared region returns
`aParts.length - bParts.length` (the original lengths differ from the
remaining lengths by the same consumed amount). -/
def sortCmpAux : List String → List String → Int
  | a :: as, b :: bs =>
    if a = b then sortCmpAux as bs
    else
      let aIsDeep := !as.isEmpty
      let bIsDeep := !bs.isEmpty
      if aIsDeep && !bIsDeep then -1
      else if !aIsDeep && bIsDeep then 1
      else localeCompare a b
  | as, bs => (as.length : Int) - (bs.length : Int)

/-- The comparator of `sortTreeItems` on two paths. -/
def sortCmp (a b : String) : Int :=
  sortCmpAux (splitPath a) (splitPath b)

/-- Stable insertion into an already sorted list: the new element goes
before the first element that must come strictly after it. -/
def insertSorted (x : FileContent) : List FileContent → List FileContent
  | [] => [x]
  | y :: ys => if sortCmp x.path y.path < 0 then x :: y :: ys else y :: insertSorted x ys

/-- `[...items].sort(comparator)`: JavaScript `Array.prototype.sort` is
stable, modelled by stable insertion sort with the same comparator. -/
def sortTreeItems (items : List FileContent) : List FileContent :=
  items.foldl (fun acc x => insertSorted x acc) []

/-! ## `formatRepoOutput` (src/unnamed/part_000, lines 73–102) -/

/-- Template interpolation of a possibly-`undefined` string. -/
def showOpt : Option String → String
  | some s => s
  | none => "undefined"

/-- `repoDetails?.owner` under template interpolation. -/
def showOwner : Option RepoDetails → String
  | some d => d.owner
  | none => "undefined"

/-- `repoDetails?.repo` under template interpolation. -/
def showRepo : Option RepoDetails → String
  | some d => d.repo
  | none => "undefined"

/-- JavaScript truthiness of `file.dataUrl` / `file.text`
(`undefined` and `""` are falsy). -/
def truthyStr : Option String → Bool
  | some s => !(s == "")
  | none => false

/-- `formatRepoOutput` (lines 73–102): header, ASCII index, then one
appended chunk per sorted content item. -/
def formatRepoOutput (contents : List FileContent) (tree : TreeNode)
    (format : OutFormat) (repoDetails : Option RepoDetails) : String :=
  let sorted := sortTreeItems contents
  let index := buildAsciiIndex tree "" true
  match format with
  | .md =>
    let output := "# Repository: " ++ showOwner repoDetails ++ "/" ++ showRepo repoDetails ++ "\n\n"
    let output := output ++ "## Directory Structure\n\n```text\n" ++ index ++ "\n```\n\n"
    let output := output ++ "## Files\n"
    sorted.foldl
      (fun out file =>
        if file.type == .image && truthyStr file.dataUrl then
          out ++ "\n### File: " ++ file.path ++ "\n\n![" ++ file.path ++ "](" ++
            showOpt file.dataUrl ++ ")\n"
        else if file.type == .text then
          out ++ "\n### File: " ++ file.path ++ "\n\n```" ++ lastDotSeg file.path ++ "\n" ++
            showOpt file.text ++ "\n```\n"
        else out)
      output
  | .txt =>
    let output := "REPOSITORY: " ++ showOwner repoDetails ++ "/" ++ showRepo repoDetails ++ "\n"
    let output := output ++ "STRUCTURE:\n\n" ++ index ++ "\n\n"
    sorted.foldl
      (fun out file =>
        if file.type == .text then
          out ++ "\n---\nFILE: " ++ file.path ++ "\n---\n\n" ++ showOpt file.text ++ "\n"
        else
          out ++ "\n---\nFILE: " ++ file.path ++ " (Image Content: " ++
            showOpt file.mimeType ++ ")\n---\n")
      output

/-! ## Derived observers used by the statements -/

mutual

/-- The paths of the descendant file nodes of a tree (including the node
itself when it is a blob), in the visit order of `toggleChildren` —
exactly the set of map keys `toggleChildren` writes. -/
def blobPaths : TreeNode → List String
  | .mk _ p ty _ _ cs => (if ty = .blob then [p] else []) ++ blobPathsList cs

def blobPathsList : List (String × TreeNode) → List String
  | [] => []
  | c :: rest => blobPaths c.2 ++ blobPathsList rest

end

mutual

/-- The file paths `getSelectionStatus` actually inspects: children of a
blob node are never visited, since the blob branch returns first. -/
def visibleFiles : TreeNode → List String
  | .mk _ p ty _ _ cs => if ty = .blob then [p] else visibleFilesList cs

def visibleFilesList : List (String × TreeNode) → List String
  | [] => []
  | c :: rest => visibleFiles c.2 ++ visibleFilesList rest

end

mutual

/-- No directory reachable by `getSelectionStatus` (stopping at blobs) is
childless: the condition under which an all-selected subtree reads
`'checked'` rather than bottoming out in the vacuous `'unchecked'` case. -/
def allNonEmpty : TreeNode → Bool
  | .mk _ _ ty _ _ cs => ty = NType.blob || (!cs.isEmpty && allNonEmptyList cs)

def allNonEmptyList : List (String × TreeNode) → Bool
  | [] => true
  | c :: rest => allNonEmpty c.2 && allNonEmptyList rest

end

mutual

/-- All nodes of a tree, the node itself first, children depth-first. -/
def allNodes : TreeNode → List TreeNode
  | .mk nm p ty sh u cs => .mk nm p ty sh u cs :: allNodesList cs

def allNodesList : List (String × TreeNode) → List TreeNode
  | [] => []
  | c :: rest => allNodes c.2 ++ allNodesList rest

end

mutual

/-- The node `findAndToggle` acts on: the first node in depth-first
left-to-right order whose `path` field equals the argument. -/
def dfsFind (path : String) : TreeNode → Option TreeNode
  | .mk nm p ty sh u cs =>
    if p = path then some (.mk nm p ty sh u cs) else dfsFindList path cs

def dfsFindList (path : String) : List (String × TreeNode) → Option TreeNode
  | [] => none
  | c :: rest =>
    match dfsFind path c.2 with
    | some n => some n
    | none => dfsFindList path rest

end

mutual

/-- Total node count of a tree (the synthetic root included). -/
def TreeNode.size : TreeNode → Nat
  | .mk _ _ _ _ _ cs => 1 + sizeList cs

def sizeList : List (String × TreeNode) → Nat
  | [] => 0
  | c :: rest => c.2.size + sizeList rest

end

/-- Concatenation of a list of strings (`join('')`). -/
def strConcat : List String → String
  | [] => ""
  | s :: rest => s ++ strConcat rest

/-- The chunk `formatRepoOutput` appends per content item in Markdown mode
(empty for an image without a truthy data URL). -/
def mdSection (file : FileContent) : String :=
  if file.type == .image && truthyStr file.dataUrl then
    "\n### File: " ++ file.path ++ "\n\n![" ++ file.path ++ "](" ++
      showOpt file.dataUrl ++ ")\n"
  else if file.type == .text then
    "\n### File: " ++ file.path ++ "\n\n```" ++ lastDotSeg file.path ++ "\n" ++
      showOpt file.text ++ "\n```\n"
  else ""

/-- The chunk `formatRepoOutput` appends per content item in plain mode. -/
def plainSection (file : FileContent) : String :=
  if file.type == .text then
    "\n---\nFILE: " ++ file.path ++ "\n---\n\n" ++ showOpt file.text ++ "\n"
  else
    "\n---\nFILE: " ++ file.path ++ " (Image Content: " ++
      showOpt file.mimeType ++ ")\n---\n"

/-- Sign of a JavaScript comparator value as an `Ordering`. -/
def intToOrd (i : Int) : Ordering :=
  if i < 0 then .lt else if i = 0 then .eq else .gt

/-- Strip the longest common segment run of two split paths. -/
def dropCommon : List String → List String → List String × List String
  | a :: as, b :: bs => if a = b then dropCommon as bs else (a :: as, b :: bs)
  | as, bs => (as, bs)

/-- The ordering rule exactly as the specification words it, applied after
the common leading segments are gone: equal remainders are equal paths; a
path whose segments are a proper prefix of the other's (empty remainder)
sorts first; at the first differing segment a path that still has segments
remaining sorts before one that does not; two equally deep differing
segments compare by locale. -/
def specCmpCore : List String → List String → Ordering
  | [], [] => .eq
  | [], _ :: _ => .lt
  | _ :: _, [] => .gt
  | x :: xs, y :: ys =>
    if !xs.isEmpty && ys.isEmpty then .lt
    else if xs.isEmpty && !ys.isEmpty then .gt
    else intToOrd (localeCompare x y)

/-- The specification's ordering rule on two paths. -/
def specCmp (a b : String) : Ordering :=
  specCmpCore (dropCommon (splitPath a) (splitPath b)).1
    (dropCommon (splitPath a) (splitPath b)).2

/-- The extension exactly as the specification words it for the default
selection: the substring after the last `'.'`, empty when the path contains
no `'.'` at all. -/
def specExt (p : String) : String :=
  if p.data.contains '.' then lowerStr (lastDotSeg p) else ""

/-- Tree invariant: every reachable node's `path` field is the `/`-join of
`base` and the segments walked to reach it. -/
def PathOK (t : TreeNode) (base : List String) : Prop :=
  ∀ q c, findNode t q = some c → c.path = joinPath (base ++ q)

/-- Tree invariant: every reachable blob (FILE) node has no children. -/
def BlobLeaf (t : TreeNode) : Prop :=
  ∀ q c, findNode t q = some c → c.type = .blob → c.children = []

/-- Tree invariant: every reachable blob node was written by some blob
entry of `E` whose split path is the walked segments after `base`. -/
def BlobFrom (t : TreeNode) (base : List String) (E : List GitHubItem) : Prop :=
  ∀ q c, findNode t q = some c → c.type = .blob →
    ∃ e ∈ E, e.type = .blob ∧ splitPath e.path = base ++ q

/-- The duplicate-freedom hypothesis of the amended C6: no FILE entry's
segment path is a proper prefix of another entry's segment path. -/
def NoBlobPrefix (items : List GitHubItem) : Prop :=
  ∀ e1 ∈ items, ∀ e2 ∈ items, e1.type = .blob →
    splitPath e1.path <+: splitPath e2.path → splitPath e1.path = splitPath e2.path

/-- Structural induction over `TreeNode` through the nested children list. -/
def TreeNode.inductionOn {P : TreeNode → Prop}
    (h : ∀ nm p ty sh u cs, (∀ c ∈ cs, P c.2) → P (.mk nm p ty sh u cs)) :
    ∀ t, P t
  | .mk nm p ty sh u cs =>
    h nm p ty sh u cs (fun c hc => TreeNode.inductionOn h c.2)
termination_by t => sizeOf t
decreasing_by
  have h1 := List.sizeOf_lt_of_mem hc
  obtain ⟨c1, c2⟩ := c
  simp at h1 ⊢
  omega

/-! ## Concrete inputs used by counterexamples and witnesses -/

/-- A file entry `d/f`. -/
def itemDF : GitHubItem := ⟨"d/f", .blob, "sf", "uf"⟩

/-- A file entry `d/g`. -/
def itemDG : GitHubItem := ⟨"d/g", .blob, "sg", "ug"⟩

/-- A directory entry `d` with no contents. -/
def itemD : GitHubItem := ⟨"d", .tree, "", ""⟩

/-- A file entry at path `a`. -/
def itemA1 : GitHubItem := ⟨"a", .blob, "s1", "u1"⟩

/-- A second file entry at the same path `a` with different metadata. -/
def itemA2 : GitHubItem := ⟨"a", .blob, "s2", "u2"⟩

/-- A file entry `a/b` beneath the file path `a`. -/
def itemAB : GitHubItem := ⟨"a/b", .blob, "s3", "u3"⟩

/-- A file entry whose path is literally `root`. -/
def itemRootName : GitHubItem := ⟨"root", .blob, "sr", "ur"⟩

/-- A file entry whose path is literally `md` (no dot anywhere). -/
def itemMd : GitHubItem := ⟨"md", .blob, "sm", "um"⟩

/-- A text content item at a given path. -/
def fcOf (p : String) : FileContent := ⟨p, some "x", none, "", .text, none⟩

/-- The directory node at path `d` inside `buildTree [itemDF]`. -/
def nodeD : TreeNode :=
  .mk "d" "d" .tree "" "" [("f", .mk "f" "d/f" .blob "sf" "uf" [])]

/-- The directory node at path `d` inside `buildTree [itemDF, itemDG]`. -/
def nodeDFG : TreeNode :=
  .mk "d" "d" .tree "" ""
    [("f", .mk "f" "d/f" .blob "sf" "uf" []), ("g", .mk "g" "d/g" .blob "sg" "ug" [])]

/-- A mixed (indeterminate) selection over `d/f` and `d/g`. -/
def selMixed : SelMap := [("d/f", true), ("d/g", false)]

/-- A uniform all-true selection over `d/f` and `d/g`. -/
def selBoth : SelMap := [("d/f", true), ("d/g", true)]

/-! ## Basic lemmas about the map and string models -/

theorem str_data_append (a b : String) : (a ++ b).data = a.data ++ b.data := by
  cases a
  cases b
  rfl

theorem str_append_assoc (a b c : String) : a ++ b ++ c = a ++ (b ++ c) := by
  apply String.ext
  simp [str_data_append]

theorem str_append_empty (a : String) : a ++ "" = a := by
  apply String.ext
  simp [str_data_append]

theorem str_ne_empty_left (a b : String) (h : a.data ≠ []) : a ++ b ≠ "" := by
  intro heq
  have hd := congrArg String.data heq
  rw [str_data_append] at hd
  simp at hd
  exact h hd.1

theorem countNL_append (a b : String) : countNL (a ++ b) = countNL a + countNL b := by
  simp [countNL, str_data_append]

theorem lookupSel_setSel_self (m : SelMap) (k : String) (v : Bool) :
    lookupSel (setSel m k v) k = some v := by
  induction m with
  | nil => simp [setSel, lookupSel]
  | cons a rest ih =>
    obtain ⟨ak, av⟩ := a
    by_cases h : ak = k
    · simp [setSel, h, lookupSel]
    · simp [setSel, h, lookupSel, ih]

theorem lookupSel_setSel_ne (m : SelMap) (k k' : String) (v : Bool) (h : k' ≠ k) :
    lookupSel (setSel m k v) k' = lookupSel m k' := by
  induction m with
  | nil => simp [setSel, lookupSel, Ne.symm h]
  | cons a rest ih =>
    obtain ⟨ak, av⟩ := a
    by_cases hak : ak = k
    · subst hak
      simp [setSel, lookupSel, Ne.symm h]
    · simp [setSel, hak, lookupSel, ih]

theorem selKeys_setSel_of_mem (m : SelMap) (k : String) (v : Bool) (h : k ∈ selKeys m) :
    selKeys (setSel m k v) = selKeys m := by
  induction m with
  | nil => simp [selKeys] at h
  | cons a rest ih =>
    obtain ⟨ak, av⟩ := a
    by_cases hak : ak = k
    · simp [setSel, hak, selKeys]
    · have hcons : k ∈ ak :: selKeys rest := h
      rcases List.mem_cons.mp hcons with h1 | h1
      · exact absurd h1.symm hak
      · have hrec := ih h1
        show selKeys (setSel ((ak, av) :: rest) k v) = selKeys ((ak, av) :: rest)
        rw [setSel, if_neg hak]
        show ak :: selKeys (setSel rest k v) = ak :: selKeys rest
        rw [hrec]

theorem lookupChild_setChild_self (cs : List (String × TreeNode)) (k : String) (v : TreeNode) :
    lookupChild (setChild cs k v) k = some v := by
  induction cs with
  | nil => simp [setChild, lookupChild]
  | cons a rest ih =>
    obtain ⟨ak, av⟩ := a
    by_cases h : ak = k
    · simp [setChild, h, lookupChild]
    · simp [setChild, h, lookupChild, ih]

theorem lookupChild_setChild_ne (cs : List (String × TreeNode)) (k k' : String) (v : TreeNode)
    (h : k' ≠ k) : lookupChild (setChild cs k v) k' = lookupChild cs k' := by
  induction cs with
  | nil => simp [setChild, lookupChild, Ne.symm h]
  | cons a rest ih =>
    obtain ⟨ak, av⟩ := a
    by_cases hak : ak = k
    · subst hak
      simp [setChild, lookupChild, Ne.symm h]
    · simp [setChild, hak, lookupChild, ih]

theorem setChild_of_lookup (cs : List (String × TreeNode)) (k : String) (v : TreeNode)
    (h : lookupChild cs k = some v) : setChild cs k v = cs := by
  induction cs with
  | nil => simp [lookupChild] at h
  | cons a rest ih =>
    obtain ⟨ak, av⟩ := a
    by_cases hak : ak = k
    · subst hak
      simp [lookupChild] at h
      simp [setChild, h]
    · simp [lookupChild, hak] at h
      simp [setChild, hak, ih h]

/-! ## Lemmas about `toggleChildren` and `findAndToggle` -/

mutual

/-- `toggleChildren` sets exactly the descendant file paths to the target
value and leaves every other key unchanged. -/
theorem toggle_lookup (tgt : Bool) :
    ∀ (t : TreeNode) (m : SelMap) (k : String),
      lookupSel (toggleChildren tgt t m) k =
        if k ∈ blobPaths t then some tgt else lookupSel m k
  | .mk nm p ty sh u cs, m, k => by
    rw [toggleChildren]
    rw [toggleList_lookup tgt cs]
    by_cases hty : ty = NType.blob
    · by_cases hk : k ∈ blobPathsList cs
      · simp [blobPaths, hty, hk]
      · by_cases hkp : k = p
        · subst hkp
          simp [blobPaths, hty, hk, lookupSel_setSel_self]
        · simp [blobPaths, hty, hk, hkp, lookupSel_setSel_ne _ _ _ _ hkp]
    · simp [blobPaths, hty]

theorem toggleList_lookup (tgt : Bool) :
    ∀ (cs : List (String × TreeNode)) (m : SelMap) (k : String),
      lookupSel (toggleChildrenList tgt cs m) k =
        if k ∈ blobPathsList cs then some tgt else lookupSel m k
  | [], m, k => by simp [toggleChildrenList, blobPathsList]
  | c :: rest, m, k => by
    rw [toggleChildrenList]
    rw [toggleList_lookup tgt rest]
    by_cases hk : k ∈ blobPathsList rest
    · simp [blobPathsList, hk]
    · rw [toggle_lookup tgt c.2]
      by_cases hk2 : k ∈ blobPaths c.2
      · simp [blobPathsList, hk, hk2]
      · simp [blobPathsList, hk, hk2]

end

mutual

/-- When every descendant file path is already a key, `toggleChildren`
only overwrites values in place and the key list is unchanged. -/
theorem toggle_keys (tgt : Bool) :
    ∀ (t : TreeNode) (m : SelMap), (∀ q ∈ blobPaths t, q ∈ selKeys m) →
      selKeys (toggleChildren tgt t m) = selKeys m
  | .mk nm p ty sh u cs, m, h => by
    rw [toggleChildren]
    by_cases hty : ty = NType.blob
    · have hp : p ∈ selKeys m := h p (by simp [blobPaths, hty])
      have hkeys := selKeys_setSel_of_mem m p tgt hp
      rw [toggleList_keys tgt cs _ ?_]
      · simp [hty, hkeys]
      · intro q hq
        rw [if_pos hty, hkeys]
        exact h q (by simp [blobPaths, hty, hq])
    · rw [toggleList_keys tgt cs _ ?_]
      · simp [hty]
      · intro q hq
        have : ¬ ty = NType.blob := hty
        simp [this]
        exact h q (by simp [blobPaths, hty, hq])

theorem toggleList_keys (tgt : Bool) :
    ∀ (cs : List (String × TreeNode)) (m : SelMap),
      (∀ q ∈ blobPathsList cs, q ∈ selKeys m) →
      selKeys (toggleChildrenList tgt cs m) = selKeys m
  | [], m, _ => by simp [toggleChildrenList]
  | c :: rest, m, h => by
    rw [toggleChildrenList]
    have hc : ∀ q ∈ blobPaths c.2, q ∈ selKeys m := by
      intro q hq
      exact h q (by simp [blobPathsList, hq])
    have hck := toggle_keys tgt c.2 m hc
    rw [toggleList_keys tgt rest _ ?_, hck]
    intro q hq
    rw [hck]
    exact h q (by simp [blobPathsList, hq])

end

mutual

/-- A subtree without file nodes writes nothing. -/
theorem toggle_noop (tgt : Bool) :
    ∀ (t : TreeNode) (m : SelMap), blobPaths t = [] → toggleChildren tgt t m = m
  | .mk nm p ty sh u cs, m, h => by
    rw [toggleChildren]
    simp [blobPaths] at h
    by_cases hty : ty = NType.blob
    · simp [hty] at h
    · simp [hty] at h ⊢
      exact toggleList_noop tgt cs m h

theorem toggleList_noop (tgt : Bool) :
    ∀ (cs : List (String × TreeNode)) (m : SelMap),
      blobPathsList cs = [] → toggleChildrenList tgt cs m = m
  | [], m, _ => by simp [toggleChildrenList]
  | c :: rest, m, h => by
    rw [toggleChildrenList]
    simp [blobPathsList] at h
    rw [toggle_noop tgt c.2 m h.1]
    exact toggleList_noop tgt rest m h.2

end

mutual

/-- `findAndToggle` at a path that `dfsFind` locates toggles exactly the
located node's subtree. -/
theorem fat_some (path : String) (tgt : Bool) :
    ∀ (t : TreeNode) (n : TreeNode) (m : SelMap), dfsFind path t = some n →
      findAndToggle path tgt t m = (true, toggleChildren tgt n m)
  | .mk nm p ty sh u cs, n, m, h => by
    rw [findAndToggle]
    rw [dfsFind] at h
    by_cases hp : p = path
    · simp [hp] at h ⊢
      rw [← h]
    · simp [hp] at h ⊢
      exact fatList_some path tgt cs n m h

theorem fatList_some (path : String) (tgt : Bool) :
    ∀ (cs : List (String × TreeNode)) (n : TreeNode) (m : SelMap),
      dfsFindList path cs = some n →
      findAndToggleList path tgt cs m = (true, toggleChildren tgt n m)
  | c :: rest, n, m, h => by
    rw [findAndToggleList]
    rw [dfsFindList] at h
    cases hc : dfsFind path c.2 with
    | some n' =>
      rw [hc] at h
      simp at h
      rw [fat_some path tgt c.2 n' m hc, h]
    | none =>
      rw [hc] at h
      simp at h
      rw [fat_none path tgt c.2 m hc]
      exact fatList_some path tgt rest n m h

theorem fat_none (path : String) (tgt : Bool) :
    ∀ (t : TreeNode) (m : SelMap), dfsFind path t = none →
      findAndToggle path tgt t m = (false, m)
  | .mk nm p ty sh u cs, m, h => by
    rw [findAndToggle]
    rw [dfsFind] at h
    by_cases hp : p = path
    · simp [hp] at h
    · simp [hp] at h ⊢
      exact fatList_none path tgt cs m h

theorem fatList_none (path : String) (tgt : Bool) :
    ∀ (cs : List (String × TreeNode)) (m : SelMap), dfsFindList path cs = none →
      findAndToggleList path tgt cs m = (false, m)
  | [], m, _ => by simp [findAndToggleList]
  | c :: rest, m, h => by
    rw [findAndToggleList]
    rw [dfsFindList] at h
    cases hc : dfsFind path c.2 with
    | some n' => rw [hc] at h; simp at h
    | none =>
      rw [hc] at h
      rw [fat_none path tgt c.2 m hc]
      exact fatList_none path tgt rest m h

end

mutual

/-- If no node of the tree carries the path, the depth-first search fails. -/
theorem dfsFind_none (path : String) :
    ∀ (t : TreeNode), (∀ n ∈ allNodes t, n.path ≠ path) → dfsFind path t = none
  | .mk nm p ty sh u cs, h => by
    rw [dfsFind]
    have hp : TreeNode.path (.mk nm p ty sh u cs) ≠ path := by
      apply h
      simp [allNodes]
    simp [TreeNode.path] at hp
    simp [hp]
    apply dfsFindList_none path cs
    intro n hn
    apply h
    simp [allNodes]
    right
    exact hn

theorem dfsFindList_none (path : String) :
    ∀ (cs : List (String × TreeNode)), (∀ n ∈ allNodesList cs, n.path ≠ path) →
      dfsFindList path cs = none
  | [], _ => by simp [dfsFindList]
  | c :: rest, h => by
    rw [dfsFindList]
    rw [dfsFind_none path c.2 ?_]
    · apply dfsFindList_none path rest
      intro n hn
      apply h
      simp [allNodesList]
      right
      exact hn
    · intro n hn
      apply h
      simp [allNodesList]
      left
      exact hn

end

/-! ## Claim C1 -/

/-- **C1** (counterexample).  The aggregate `getSelectionStatus` of the
directory `d` over the empty selection map is `'unchecked'`, so the claim
demands that toggling `d` set its descendant file `d/f` to `true`; the code
instead finds no keys beneath `d` in the empty map, takes
`isCurrentlySelected = true` vacuously, and writes `false`. -/
theorem C1_counterexample :
    (dfsFind "d" (buildTree [itemDF])).map (getSelectionStatus []) = some .unchecked ∧
    (dfsFind "d" (buildTree [itemDF])).map blobPaths = some ["d/f"] ∧
    lookupSel (toggleSubtree (some (buildTree [itemDF])) [] "d") "d/f" = some false :=
  ⟨by decide, by decide, by decide⟩

/-- **C1** (amended).  `ToggleSubtree` on a path located in the tree derives
its direction from the selection map itself, not from the aggregate
`Status`: it sets the map entry of every descendant FILE (at every depth
beneath the located node) to the negation of `isCurrentlySelected`, the
conjunction of the existing map values at keys equal to the path or
beneath it. -/
theorem C1_toggle_direction (t : TreeNode) (sel : SelMap) (path : String) (n : TreeNode)
    (h : dfsFind path t = some n) :
    ∀ q ∈ blobPaths n,
      lookupSel (toggleSubtree (some t) sel path) q =
        some (!(isCurrentlySelected sel path)) := by
  intro q hq
  show lookupSel (findAndToggle path (!(isCurrentlySelected sel path)) t sel).2 q = _
  rw [fat_some path (!(isCurrentlySelected sel path)) t n sel h]
  show lookupSel (toggleChildren (!(isCurrentlySelected sel path)) n sel) q = _
  rw [toggle_lookup]
  simp [hq]

/-- **C1** (witness for the amended theorem). -/
theorem C1_witness :
    dfsFind "d" (buildTree [itemDF]) = some nodeD ∧
    (∀ q ∈ blobPaths nodeD,
      lookupSel (toggleSubtree (some (buildTree [itemDF])) [("d/f", true)] "d") q =
        some (!(isCurrentlySelected [("d/f", true)] "d"))) :=
  ⟨rfl, C1_toggle_direction (buildTree [itemDF]) [("d/f", true)] "d" nodeD rfl⟩

/-! ## Claim C9 -/

/-- **C9** (confirmed).  Toggling a path carried by no node of the tree is a
no-op: the map comes back unchanged (hence every key maps to the same
value) and no failure occurs — all functions involved are total. -/
theorem C9_toggle_missing_noop (t : TreeNode) (sel : SelMap) (path : String)
    (h : ∀ n ∈ allNodes t, n.path ≠ path) :
    toggleSubtree (some t) sel path = sel := by
  show (findAndToggle path (!(isCurrentlySelected sel path)) t sel).2 = sel
  rw [fat_none path (!(isCurrentlySelected sel path)) t sel (dfsFind_none path t h)]

/-- **C9** (witness). -/
theorem C9_witness :
    (∀ n ∈ allNodes (buildTree [itemDF]), n.path ≠ "zzz") ∧
    toggleSubtree (some (buildTree [itemDF])) [("d/f", true)] "zzz" = [("d/f", true)] :=
  ⟨by decide, C9_toggle_missing_noop (buildTree [itemDF]) [("d/f", true)] "zzz" (by decide)⟩

/-! ## Claim C3 -/

/-- **C3** (counterexample).  Supplying the path `a` twice keeps the
identifier of the *first* entry (`s1`), not the second (`s2`): `buildTree`
creates a node only when `current.children[part]` is absent and never
overwrites an existing one. -/
theorem C3_counterexample :
    (findNode (buildTree [itemA1, itemA2]) ["a"]).map TreeNode.sha = some "s1" ∧
    (findNode (buildTree [itemA1, itemA2]) ["a"]).map TreeNode.sha ≠ some "s2" ∧
    (findNode (buildTree [itemA1, itemA2]) ["a"]).map TreeNode.type = some .blob :=
  ⟨by decide, by decide, by decide⟩

/-- An item whose whole segment path already exists in the tree leaves the
tree untouched. -/
theorem insert_noop (item : GitHubItem) :
    ∀ (parts : List String) (t : TreeNode) (done : List String),
      (findNode t parts).isSome = true → insertEntry item t done parts = t
  | [], t, _, _ => by rw [insertEntry]
  | part :: rest, .mk nm p ty sh u cs, done, h => by
    rw [findNode] at h
    cases hc : lookupChild cs part with
    | none => rw [hc] at h; simp at h
    | some c =>
      rw [hc] at h
      simp only at h
      rw [insertEntry]
      simp only [hc]
      rw [insert_noop item rest c (done ++ [part]) h]
      rw [setChild_of_lookup cs part c hc]

/-- **C3** (amended).  The *first* write wins: when an entry's path is
already a node of the tree built so far, the later entry is ignored
entirely (no node field changes, no error is raised). -/
theorem C3_first_wins (l : List GitHubItem) (e : GitHubItem)
    (h : (findNode (buildTree l) (splitPath e.path)).isSome = true) :
    buildTree (l ++ [e]) = buildTree l := by
  have hfold : buildTree (l ++ [e]) =
      insertEntry e (buildTree l) [] (splitPath e.path) := by
    unfold buildTree
    rw [List.foldl_append]
    rfl
  rw [hfold]
  exact insert_noop e (splitPath e.path) (buildTree l) [] h

/-- **C3** (witness for the amended theorem). -/
theorem C3_witness :
    (findNode (buildTree [itemA1]) (splitPath itemA2.path)).isSome = true ∧
    buildTree ([itemA1] ++ [itemA2]) = buildTree [itemA1] :=
  ⟨by decide, C3_first_wins [itemA1] itemA2 (by decide)⟩

/-! ## Claim C8 -/

/-- **C8** (counterexample).  A file whose path contains no dot gets the
*whole path* as its extension (`'md'.split('.').pop()` is `'md'`), so the
file named `md` is selected by default; the claim's reading — extension
empty when there is no dot — predicts unselected. -/
theorem C8_counterexample :
    lookupSel (defaultSelection [itemMd]) "md" = some true ∧
    specExt "md" = "" ∧
    COMMON_EXTENSIONS.contains (specExt "md") = false :=
  ⟨by decide, by decide, by decide⟩

/-- The `initialSelection` fold, relative to an arbitrary starting map. -/
theorem defaultSelection_step (p : String) :
    ∀ (l : List GitHubItem) (sel : SelMap),
      lookupSel
        (l.foldl
          (fun sel item =>
            if item.type = .blob then
              setSel sel item.path (COMMON_EXTENSIONS.contains (extOf item.path))
            else sel)
          sel) p =
      if l.any (fun it => it.type == NType.blob && it.path == p) then
        some (COMMON_EXTENSIONS.contains (extOf p))
      else lookupSel sel p
  | [], sel => by simp
  | item :: rest, sel => by
    rw [List.foldl_cons, List.any_cons]
    rw [defaultSelection_step p rest]
    by_cases hany : rest.any (fun it => it.type == NType.blob && it.path == p) = true
    · simp [hany]
    · simp only [Bool.not_eq_true] at hany
      by_cases hty : item.type = NType.blob
      · by_cases hp : item.path = p
        · subst hp
          simp [hany, hty, lookupSel_setSel_self]
        · simp [hany, hty, hp, lookupSel_setSel_ne _ _ _ _ (Ne.symm hp)]
      · simp [hany, hty]

/-- **C8** (amended).  A FILE entry's default-selection value is keyed by the
last dot-separated chunk of its path — the substring after the last `'.'`
when a dot is present, the *whole path* otherwise — lowercased and tested
against `COMMON_EXTENSIONS`; DIRECTORY entries are never inserted into the
map (a key is present exactly when some FILE entry carries that path). -/
theorem C8_default_selection (items : List GitHubItem) (p : String) :
    lookupSel (defaultSelection items) p =
      if items.any (fun it => it.type == NType.blob && it.path == p) then
        some (COMMON_EXTENSIONS.contains (extOf p))
      else none := by
  unfold defaultSelection
  rw [defaultSelection_step p items]
  rfl

/-! ## Claim C4 -/

/-- **C4** (counterexample).  From the mixed map `{d/f: true, d/g: false}`,
toggling the directory `d` twice ends with `{d/f: false, d/g: false}`: the
first toggle selects everything (the group was not fully selected), the
second clears everything, so the original mixed values are lost. -/
theorem C4_counterexample :
    (dfsFind "d" (buildTree [itemDF, itemDG])).map TreeNode.type = some .tree ∧
    lookupSel selMixed "d/f" = some true ∧
    lookupSel
      (toggleSubtree (some (buildTree [itemDF, itemDG]))
        (toggleSubtree (some (buildTree [itemDF, itemDG])) selMixed "d") "d")
      "d/f" = some false :=
  ⟨by decide, by decide, by decide⟩

/-- A boolean `all` over a nonempty list of constant value. -/
theorem all_filter_const {M : List String} {f : String → Bool} {b : Bool}
    (hne : M ≠ []) (hall : ∀ k ∈ M, f k = b) : M.all f = b := by
  cases b
  · cases M with
    | nil => exact absurd rfl hne
    | cons x xs => simp [List.all_cons, hall x (by simp)]
  · rw [List.all_eq_true]
    exact hall

/-- **C4** (amended).  Applying `ToggleSubtree` twice in a row returns a map
with the original lookup at every key, provided the map's keys at or beneath
the path are exactly the descendant FILE paths of the node the toggle acts
on and they all carry one common boolean value (the group is not in a mixed
state).  Without these provisos the round trip can change the map, as the
counterexample shows. -/
theorem C4_round_trip (t : TreeNode) (sel : SelMap) (path : String) (n : TreeNode)
    (h1 : dfsFind path t = some n)
    (h2 : ∀ q ∈ blobPaths n, matchesSubPath path q = true ∧ q ∈ selKeys sel)
    (h4 : ∃ b, ∀ k ∈ selKeys sel, matchesSubPath path k = true → lookupSel sel k = some b)
    (h3 : ∀ k ∈ selKeys sel, matchesSubPath path k = true → k ∈ blobPaths n) :
    ∀ k,
      lookupSel (toggleSubtree (some t) (toggleSubtree (some t) sel path) path) k =
        lookupSel sel k := by
  obtain ⟨b, hb⟩ := h4
  have htog : ∀ m : SelMap, toggleSubtree (some t) m path =
      toggleChildren (!(isCurrentlySelected m path)) n m := by
    intro m
    show (findAndToggle path (!(isCurrentlySelected m path)) t m).2 = _
    rw [fat_some path (!(isCurrentlySelected m path)) t n m h1]
  cases hS : blobPaths n with
  | nil =>
    intro k
    rw [htog, toggle_noop _ n _ hS, htog, toggle_noop _ n _ hS]
  | cons s S' =>
    have hsmem : s ∈ blobPaths n := by rw [hS]; simp
    have hsMatch := (h2 s hsmem).1
    have hsKey := (h2 s hsmem).2
    have hsM : s ∈ (selKeys sel).filter (fun p => matchesSubPath path p) :=
      List.mem_filter.mpr ⟨hsKey, hsMatch⟩
    have hMne : (selKeys sel).filter (fun p => matchesSubPath path p) ≠ [] := by
      intro hM
      rw [hM] at hsM
      simp at hsM
    have hisCur1 : isCurrentlySelected sel path = b := by
      unfold isCurrentlySelected
      apply all_filter_const hMne
      intro k hk
      obtain ⟨hkKeys, hkMatch⟩ := List.mem_filter.mp hk
      rw [hb k hkKeys hkMatch]
      rfl
    have hkeys2 : selKeys (toggleChildren (!b) n sel) = selKeys sel :=
      toggle_keys (!b) n sel (fun q hq => (h2 q hq).2)
    have hstep1 : toggleSubtree (some t) sel path = toggleChildren (!b) n sel := by
      rw [htog, hisCur1]
    have hisCur2 : isCurrentlySelected (toggleChildren (!b) n sel) path = !b := by
      unfold isCurrentlySelected
      rw [hkeys2]
      apply all_filter_const hMne
      intro k hk
      obtain ⟨hkKeys, hkMatch⟩ := List.mem_filter.mp hk
      have hkS : k ∈ blobPaths n := h3 k hkKeys hkMatch
      rw [toggle_lookup, if_pos hkS]
      rfl
    intro k
    rw [hstep1, htog, hisCur2, Bool.not_not]
    rw [toggle_lookup]
    by_cases hkS : k ∈ blobPaths n
    · rw [if_pos hkS]
      have := hb k (h2 k hkS).2 (h2 k hkS).1
      rw [this]
    · rw [if_neg hkS, toggle_lookup, if_neg hkS]

/-- **C4** (witness for the amended theorem). -/
theorem C4_witness :
    dfsFind "d" (buildTree [itemDF, itemDG]) = some nodeDFG ∧
    (∀ q ∈ blobPaths nodeDFG, matchesSubPath "d" q = true ∧ q ∈ selKeys selBoth) ∧
    (∀ k ∈ selKeys selBoth, matchesSubPath "d" k = true → lookupSel selBoth k = some true) ∧
    (∀ k ∈ selKeys selBoth, matchesSubPath "d" k = true → k ∈ blobPaths nodeDFG) ∧
    (∀ k,
      lookupSel
        (toggleSubtree (some (buildTree [itemDF, itemDG]))
          (toggleSubtree (some (buildTree [itemDF, itemDG])) selBoth "d") "d") k =
        lookupSel selBoth k) :=
  ⟨rfl, by decide, by decide, by decide,
    C4_round_trip (buildTree [itemDF, itemDG]) selBoth "d" nodeDFG rfl (by decide)
      ⟨true, by decide⟩ (by decide)⟩

/-! ## Claim C2 -/

/-- **C2** (counterexample).  Over the tree built from the single childless
directory entry `d` and the empty map, every FILE node vacuously has a
`true` entry, yet `Status` of the root is `'unchecked'`, not `'checked'`:
the claimed equivalence fails in the vacuous case. -/
theorem C2_counterexample :
    ¬(getSelectionStatus [] (buildTree [itemD]) = .checked ↔
        (∀ n ∈ allNodes (buildTree [itemD]), n.type = .blob →
          lookupSel [] n.path = some true)) := by
  decide

mutual

/-- A subtree whose reachable directories all have children contains a
reachable file. -/
theorem visible_nonempty :
    ∀ t : TreeNode, allNonEmpty t = true → visibleFiles t ≠ []
  | .mk nm p ty sh u cs, h => by
    rw [allNonEmpty] at h
    rw [visibleFiles]
    by_cases hty : ty = NType.blob
    · simp [hty]
    · simp [hty] at h ⊢
      exact visibleList_nonempty cs h.2 (by simpa using h.1)

theorem visibleList_nonempty :
    ∀ cs : List (String × TreeNode), allNonEmptyList cs = true → cs ≠ [] →
      visibleFilesList cs ≠ []
  | [], _, hne => absurd rfl hne
  | c :: rest, h, _ => by
    rw [allNonEmptyList] at h
    simp only [Bool.and_eq_true] at h
    rw [visibleFilesList]
    have := visible_nonempty c.2 h.1
    simp [this]

end

mutual

/-- Characterization of `getSelectionStatus`: `'checked'` is "every
reachable file truthy and no reachable childless directory", `'unchecked'`
is "every reachable file falsy". -/
theorem status_char :
    ∀ (t : TreeNode) (sel : SelMap),
      (getSelectionStatus sel t = .checked ↔
        ((∀ q ∈ visibleFiles t, truthy (lookupSel sel q) = true) ∧ allNonEmpty t = true)) ∧
      (getSelectionStatus sel t = .unchecked ↔
        (∀ q ∈ visibleFiles t, truthy (lookupSel sel q) = false))
  | .mk nm p ty sh u cs, sel => by
    by_cases hty : ty = NType.blob
    · by_cases htr : truthy (lookupSel sel p) = true
      · constructor
        · simp [getSelectionStatus, visibleFiles, allNonEmpty, hty, htr]
        · simp [getSelectionStatus, visibleFiles, hty, htr]
      · constructor
        · simp [getSelectionStatus, visibleFiles, hty, htr]
        · simp only [Bool.not_eq_true] at htr
          simp [getSelectionStatus, visibleFiles, hty, htr]
    · by_cases hcse : cs = []
      · subst hcse
        constructor
        · simp [getSelectionStatus, visibleFiles, visibleFilesList, allNonEmpty, hty]
        · simp [getSelectionStatus, visibleFiles, visibleFilesList, hty]
      · obtain ⟨ihLC, ihLU⟩ := statusList_char cs sel
        have hne : ¬cs.isEmpty = true := by simpa using hcse
        have hcsne : cs ≠ [] := hcse
        have hstat : getSelectionStatus sel (.mk nm p ty sh u cs) =
            (if (statusList sel cs).all (· == SelStatus.checked) then .checked
             else if (statusList sel cs).all (· == SelStatus.unchecked) then .unchecked
             else .indeterminate) := by
          rw [getSelectionStatus]
          simp [hty, hne]
        have hvis : visibleFiles (.mk nm p ty sh u cs) = visibleFilesList cs := by
          rw [visibleFiles]
          simp [hty]
        have hane : allNonEmpty (.mk nm p ty sh u cs) = allNonEmptyList cs := by
          rw [allNonEmpty]
          simp [hty, hcsne]
        rw [hstat, hvis, hane]
        by_cases hallC : (statusList sel cs).all (· == SelStatus.checked) = true
        · have hRC := ihLC.mp hallC
          rw [if_pos hallC]
          constructor
          · exact ⟨fun _ => hRC, fun _ => rfl⟩
          · constructor
            · intro h
              exact absurd h (by simp)
            · intro hfalse
              obtain ⟨q, hq⟩ :=
                List.exists_mem_of_ne_nil _ (visibleList_nonempty cs hRC.2 hcsne)
              have h1 := hRC.1 q hq
              have h2 := hfalse q hq
              rw [h1] at h2
              exact absurd h2 (by simp)
        · rw [if_neg hallC]
          by_cases hallU : (statusList sel cs).all (· == SelStatus.unchecked) = true
          · have hRU := ihLU.mp hallU
            rw [if_pos hallU]
            constructor
            · constructor
              · intro h
                exact absurd h (by simp)
              · intro hR
                exact absurd (ihLC.mpr hR) hallC
            · exact ⟨fun _ => hRU, fun _ => rfl⟩
          · rw [if_neg hallU]
            constructor
            · constructor
              · intro h
                exact absurd h (by simp)
              · intro hR
                exact absurd (ihLC.mpr hR) hallC
            · constructor
              · intro h
                exact absurd h (by simp)
              · intro hR
                exact absurd (ihLU.mpr hR) hallU

theorem statusList_char :
    ∀ (cs : List (String × TreeNode)) (sel : SelMap),
      ((statusList sel cs).all (· == SelStatus.checked) = true ↔
        ((∀ q ∈ visibleFilesList cs, truthy (lookupSel sel q) = true) ∧
          allNonEmptyList cs = true)) ∧
      ((statusList sel cs).all (· == SelStatus.unchecked) = true ↔
        (∀ q ∈ visibleFilesList cs, truthy (lookupSel sel q) = false))
  | [], sel => by
    constructor
    · simp [statusList, visibleFilesList, allNonEmptyList]
    · simp [statusList, visibleFilesList]
  | c :: rest, sel => by
    obtain ⟨ihC, ihU⟩ := status_char c.2 sel
    obtain ⟨ihLC, ihLU⟩ := statusList_char rest sel
    constructor
    · rw [statusList, visibleFilesList, allNonEmptyList]
      simp only [List.all_cons, Bool.and_eq_true, beq_iff_eq]
      rw [ihC, ihLC]
      simp only [List.forall_mem_append]
      tauto
    · rw [statusList, visibleFilesList]
      simp only [List.all_cons, Bool.and_eq_true, beq_iff_eq]
      rw [ihU, ihLU]
      simp only [List.forall_mem_append]

end

/-- **C2** (amended).  For every tree and map: `Status` is `'unchecked'` iff
every FILE reachable without passing through another FILE has a falsy map
entry (absent or `false`); it is `'checked'` iff every such FILE has entry
`true` *and* no reachable directory (the node included) is childless; it is
`'indeterminate'` in exactly the remaining cases.  In particular a childless
DIRECTORY reads `'unchecked'`, and a subtree with no files at all can never
read `'checked'`. -/
theorem C2_status_characterization (sel : SelMap) (t : TreeNode) :
    (getSelectionStatus sel t = .checked ↔
      ((∀ q ∈ visibleFiles t, truthy (lookupSel sel q) = true) ∧ allNonEmpty t = true)) ∧
    (getSelectionStatus sel t = .unchecked ↔
      (∀ q ∈ visibleFiles t, truthy (lookupSel sel q) = false)) ∧
    (getSelectionStatus sel t = .indeterminate ↔
      (¬((∀ q ∈ visibleFiles t, truthy (lookupSel sel q) = true) ∧ allNonEmpty t = true) ∧
       ¬(∀ q ∈ visibleFiles t, truthy (lookupSel sel q) = false))) := by
  obtain ⟨hC, hU⟩ := status_char t sel
  refine ⟨hC, hU, ?_⟩
  constructor
  · intro hI
    constructor
    · intro hR
      have := hC.mpr hR
      rw [hI] at this
      exact absurd this (by simp)
    · intro hR
      have := hU.mpr hR
      rw [hI] at this
      exact absurd this (by simp)
  · rintro ⟨hnC, hnU⟩
    cases hst : getSelectionStatus sel t
    · exact absurd (hC.mp hst) hnC
    · exact absurd (hU.mp hst) hnU
    · rfl

/-! ## Claim C5 -/

/-- Stripping the common leading segments changes neither comparator input
in an observable way: the loop consumes equal segments one by one and the
final length difference is invariant under equal consumption. -/
theorem sortCmpAux_dropCommon :
    ∀ as bs : List String,
      sortCmpAux as bs = sortCmpAux (dropCommon as bs).1 (dropCommon as bs).2
  | [], [] => rfl
  | [], _ :: _ => rfl
  | _ :: _, [] => rfl
  | a :: as, b :: bs => by
    by_cases hab : a = b
    · have hd : dropCommon (a :: as) (b :: bs) = dropCommon as bs := by
        rw [dropCommon, if_pos hab]
      have hs : sortCmpAux (a :: as) (b :: bs) = sortCmpAux as bs := by
        rw [sortCmpAux, if_pos hab]
      rw [hd, hs]
      exact sortCmpAux_dropCommon as bs
    · have hd : dropCommon (a :: as) (b :: bs) = (a :: as, b :: bs) := by
        rw [dropCommon, if_neg hab]
      rw [hd]

/-- After `dropCommon`, two nonempty remainders have differing heads. -/
theorem dropCommon_ne :
    ∀ (as bs : List String) (x y : String) (xs ys : List String),
      dropCommon as bs = (x :: xs, y :: ys) → x ≠ y
  | [], [], x, y, xs, ys => by
    intro h
    have h' : (([] : List String), ([] : List String)) = (x :: xs, y :: ys) := h
    simp at h'
  | [], b :: bs, x, y, xs, ys => by
    intro h
    have h' : (([] : List String), b :: bs) = (x :: xs, y :: ys) := h
    simp at h'
  | a :: as, [], x, y, xs, ys => by
    intro h
    have h' : ((a :: as, ([] : List String)) : List String × List String) = (x :: xs, y :: ys) := h
    simp at h'
  | a :: as, b :: bs, x, y, xs, ys => by
    by_cases hab : a = b
    · rw [dropCommon, if_pos hab]
      exact dropCommon_ne as bs x y xs ys
    · rw [dropCommon, if_neg hab]
      intro h
      simp at h
      obtain ⟨⟨hx, _⟩, hy, _⟩ := h
      rw [← hx, ← hy]
      exact hab

/-- On remainders with differing heads (or an exhausted side) the comparator
loop computes exactly the specification's case split. -/
theorem sortCmpAux_base :
    ∀ xs ys : List String,
      (∀ (x y : String) (xs' ys' : List String), xs = x :: xs' → ys = y :: ys' → x ≠ y) →
      intToOrd (sortCmpAux xs ys) = specCmpCore xs ys := by
  intro xs ys h
  match xs, ys, h with
  | [], [], _ => decide
  | [], y :: ys, _ =>
    have hval : sortCmpAux [] (y :: ys) = (0 : Int) - (((y :: ys).length : Nat) : Int) := rfl
    rw [hval, specCmpCore, intToOrd, if_pos (by simp only [List.length_cons]; omega)]
  | x :: xs, [], _ =>
    have hval : sortCmpAux (x :: xs) [] = (((x :: xs).length : Nat) : Int) - (0 : Int) := rfl
    rw [hval, specCmpCore, intToOrd,
      if_neg (by simp only [List.length_cons]; omega),
      if_neg (by simp only [List.length_cons]; omega)]
  | x :: xs, y :: ys, h =>
    have hxy : x ≠ y := h x y xs ys rfl rfl
    rw [sortCmpAux, if_neg hxy, specCmpCore]
    cases hxs : xs.isEmpty <;> cases hys : ys.isEmpty <;> simp [intToOrd]

/-- **C5** (confirmed).  The comparator of `sortTreeItems` realizes exactly
the segment-by-segment rule the specification words (deeper-at-first-
difference first, locale order when equally deep, shorter path first on a
segment-prefix), and the scenario list sorts to the claimed order. -/
theorem C5_order :
    (∀ a b : String, intToOrd (sortCmp a b) = specCmp a b) ∧
    (sortTreeItems [fcOf "src/a.ts", fcOf "src/sub/b.ts", fcOf "README.md"]).map
        FileContent.path = ["src/sub/b.ts", "src/a.ts", "README.md"] := by
  constructor
  · intro a b
    unfold sortCmp specCmp
    rw [sortCmpAux_dropCommon (splitPath a) (splitPath b)]
    rcases hd : dropCommon (splitPath a) (splitPath b) with ⟨xs, ys⟩
    apply sortCmpAux_base
    intro x y xs' ys' hx hy
    subst hx
    subst hy
    exact dropCommon_ne (splitPath a) (splitPath b) x y xs' ys' hd
  · decide

/-! ## Claim C10 -/

/-- A fold that appends a chunk per element concatenates the chunks after
the initial string. -/
theorem foldl_chunks (step : String → FileContent → String) (f : FileContent → String)
    (hstep : ∀ out x, step out x = out ++ f x) :
    ∀ (l : List FileContent) (init : String),
      l.foldl step init = init ++ strConcat (l.map f)
  | [], init => by simp [strConcat, str_append_empty]
  | x :: rest, init => by
    rw [List.foldl_cons, hstep, foldl_chunks step f hstep rest, List.map_cons, strConcat,
      str_append_assoc]

/-- The Markdown branch of the output fold appends `mdSection`. -/
theorem mdStep_eq (out : String) (file : FileContent) :
    (if file.type == CType.image && truthyStr file.dataUrl then
      out ++ "\n### File: " ++ file.path ++ "\n\n![" ++ file.path ++ "](" ++
        showOpt file.dataUrl ++ ")\n"
    else if file.type == CType.text then
      out ++ "\n### File: " ++ file.path ++ "\n\n```" ++ lastDotSeg file.path ++ "\n" ++
        showOpt file.text ++ "\n```\n"
    else out) = out ++ mdSection file := by
  unfold mdSection
  split_ifs with h1 h2
  · simp [str_append_assoc]
  · simp [str_append_assoc]
  · rw [str_append_empty]

/-- The plain branch of the output fold appends `plainSection`. -/
theorem plainStep_eq (out : String) (file : FileContent) :
    (if file.type == CType.text then
      out ++ "\n---\nFILE: " ++ file.path ++ "\n---\n\n" ++ showOpt file.text ++ "\n"
    else
      out ++ "\n---\nFILE: " ++ file.path ++ " (Image Content: " ++
        showOpt file.mimeType ++ ")\n---\n") = out ++ plainSection file := by
  unfold plainSection
  split_ifs with h1
  · simp [str_append_assoc]
  · simp [str_append_assoc]

/-- **C10** (confirmed).  In MARKDOWN mode the output is the header followed
by one `mdSection` chunk per sorted content item, where the chunk is a
`"### File: <path>"` record exactly when the item is TEXT or is an IMAGE
with a truthy data URI, and is empty (the item is omitted) otherwise; in
PLAIN mode every item contributes a `"FILE: <path>"` banner record. -/
theorem C10_format_records (contents : List FileContent) (tree : TreeNode)
    (repoDetails : Option RepoDetails) :
    (formatRepoOutput contents tree .md repoDetails =
      "# Repository: " ++ showOwner repoDetails ++ "/" ++ showRepo repoDetails ++
        "\n\n## Directory Structure\n\n```text\n" ++ buildAsciiIndex tree "" true ++
        "\n```\n\n## Files\n" ++ strConcat ((sortTreeItems contents).map mdSection)) ∧
    (formatRepoOutput contents tree .txt repoDetails =
      "REPOSITORY: " ++ showOwner repoDetails ++ "/" ++ showRepo repoDetails ++
        "\nSTRUCTURE:\n\n" ++ buildAsciiIndex tree "" true ++ "\n\n" ++
        strConcat ((sortTreeItems contents).map plainSection)) ∧
    (∀ f : FileContent,
      (mdSection f ≠ "" ↔
        (f.type = .text ∨ (f.type = .image ∧ truthyStr f.dataUrl = true)))) ∧
    (∀ f : FileContent,
      mdSection f = "" ∨ ∃ rest, mdSection f = "\n### File: " ++ f.path ++ rest) ∧
    (∀ f : FileContent, ∃ rest, plainSection f = "\n---\nFILE: " ++ f.path ++ rest) := by
  have hsec : ∀ f : FileContent,
      mdSection f = "" ∨ ∃ rest, mdSection f = "\n### File: " ++ f.path ++ rest := by
    intro f
    unfold mdSection
    split_ifs with h1 h2
    · right
      refine ⟨"\n\n![" ++ f.path ++ "](" ++ showOpt f.dataUrl ++ ")\n", ?_⟩
      simp [str_append_assoc]
    · right
      refine ⟨"\n\n```" ++ lastDotSeg f.path ++ "\n" ++ showOpt f.text ++ "\n```\n", ?_⟩
      simp [str_append_assoc]
    · left
      rfl
  refine ⟨?_, ?_, ?_, hsec, ?_⟩
  · have hs : formatRepoOutput contents tree .md repoDetails =
        (sortTreeItems contents).foldl
          (fun out file =>
            if file.type == CType.image && truthyStr file.dataUrl then
              out ++ "\n### File: " ++ file.path ++ "\n\n![" ++ file.path ++ "](" ++
                showOpt file.dataUrl ++ ")\n"
            else if file.type == CType.text then
              out ++ "\n### File: " ++ file.path ++ "\n\n```" ++ lastDotSeg file.path ++
                "\n" ++ showOpt file.text ++ "\n```\n"
            else out)
          ("# Repository: " ++ showOwner repoDetails ++ "/" ++ showRepo repoDetails ++
            "\n\n" ++ "## Directory Structure\n\n```text\n" ++
            buildAsciiIndex tree "" true ++ "\n```\n\n" ++ "## Files\n") := rfl
    rw [hs, foldl_chunks _ mdSection mdStep_eq]
    simp [str_append_assoc]
  · have hs : formatRepoOutput contents tree .txt repoDetails =
        (sortTreeItems contents).foldl
          (fun out file =>
            if file.type == CType.text then
              out ++ "\n---\nFILE: " ++ file.path ++ "\n---\n\n" ++ showOpt file.text ++ "\n"
            else
              out ++ "\n---\nFILE: " ++ file.path ++ " (Image Content: " ++
                showOpt file.mimeType ++ ")\n---\n")
          ("REPOSITORY: " ++ showOwner repoDetails ++ "/" ++ showRepo repoDetails ++ "\n" ++
            "STRUCTURE:\n\n" ++ buildAsciiIndex tree "" true ++ "\n\n") := rfl
    rw [hs, foldl_chunks _ plainSection plainStep_eq]
    simp [str_append_assoc]
  · intro f
    constructor
    · intro hne
      unfold mdSection at hne
      split_ifs at hne with h1 h2
      · simp only [Bool.and_eq_true, beq_iff_eq] at h1
        exact Or.inr ⟨h1.1, h1.2⟩
      · simp only [beq_iff_eq] at h2
        exact Or.inl h2
      · exact absurd rfl hne
    · intro hR
      rcases hsec f with hempty | ⟨rest, hrest⟩
      · exfalso
        unfold mdSection at hempty
        split_ifs at hempty with h1 h2
        · have heq : ("\n### File: " ++ f.path ++ "\n\n![" ++ f.path ++ "](" ++
              showOpt f.dataUrl ++ ")\n") =
              "\n### File: " ++ (f.path ++ ("\n\n![" ++ (f.path ++ ("](" ++
                (showOpt f.dataUrl ++ ")\n"))))) := by
            simp [str_append_assoc]
          rw [heq] at hempty
          exact str_ne_empty_left _ _ (by decide) hempty
        · have heq : ("\n### File: " ++ f.path ++ "\n\n```" ++ lastDotSeg f.path ++ "\n" ++
              showOpt f.text ++ "\n```\n") =
              "\n### File: " ++ (f.path ++ ("\n\n```" ++ (lastDotSeg f.path ++ ("\n" ++
                (showOpt f.text ++ "\n```\n"))))) := by
            simp [str_append_assoc]
          rw [heq] at hempty
          exact str_ne_empty_left _ _ (by decide) hempty
        · rcases hR with hT | ⟨hI, hD⟩
          · exact h2 (by simp [hT])
          · exact h1 (by simp [hI, hD])
      · rw [hrest]
        have heq : ("\n### File: " ++ f.path ++ rest) =
            "\n### File: " ++ (f.path ++ rest) := by
          simp [str_append_assoc]
        rw [heq]
        exact str_ne_empty_left _ _ (by decide)
  · intro f
    unfold plainSection
    split_ifs with h1
    · refine ⟨"\n---\n\n" ++ showOpt f.text ++ "\n", ?_⟩
      simp [str_append_assoc]
    · refine ⟨" (Image Content: " ++ showOpt f.mimeType ++ ")\n---\n", ?_⟩
      simp [str_append_assoc]

/-! ## Claim C7 -/

/-- **C7** (counterexample).  A file literally named `root` triggers the
root branch of `buildAsciiIndex` (which tests `node.name === 'root'`, not
identity with the synthetic root), prints no line, and renders nothing: the
output has 0 lines but the tree has 1 node besides the synthetic root. -/
theorem C7_counterexample :
    countNL (buildAsciiIndex (buildTree [itemRootName]) "" true) ≠
      (buildTree [itemRootName]).size - 1 ∧
    countNL (buildAsciiIndex (buildTree [itemRootName]) "" true) = 0 ∧
    (buildTree [itemRootName]).size = 2 :=
  ⟨by decide, by decide, by decide⟩

mutual

/-- Each node not named `root` prints exactly one newline of its own and
recurses; prefixes and names contribute none. -/
theorem ascii_countNL :
    ∀ (t : TreeNode) (pre : String) (isLast : Bool),
      (∀ m ∈ allNodes t, m.name ≠ "root" ∧ countNL m.name = 0) → countNL pre = 0 →
      countNL (buildAsciiIndex t pre isLast) = t.size
  | .mk nm p ty sh u cs, pre, isLast, h, hp => by
    have hself := h (.mk nm p ty sh u cs) (by rw [allNodes]; exact List.mem_cons_self _ _)
    have hnm : nm ≠ "root" := by
      simpa [TreeNode.name] using hself.1
    have hnmNL : countNL nm = 0 := by
      simpa [TreeNode.name] using hself.2
    rw [buildAsciiIndex, if_neg hnm]
    have hchild : ∀ m ∈ allNodesList cs, m.name ≠ "root" ∧ countNL m.name = 0 := by
      intro m hm
      exact h m (by rw [allNodes]; exact List.mem_cons_of_mem _ hm)
    have hconn : countNL (if isLast then "└── " else "├── ") = 0 := by
      cases isLast <;> decide
    have hcpre : countNL (pre ++ if isLast then "    " else "│   ") = 0 := by
      rw [countNL_append, hp]
      cases isLast <;> decide
    rw [countNL_append, countNL_append, countNL_append, countNL_append]
    rw [hp, hconn, hnmNL, asciiList_countNL cs _ hchild hcpre]
    rw [TreeNode.size]
    have hone : countNL "\n" = 1 := by decide
    omega

theorem asciiList_countNL :
    ∀ (cs : List (String × TreeNode)) (pre : String),
      (∀ m ∈ allNodesList cs, m.name ≠ "root" ∧ countNL m.name = 0) → countNL pre = 0 →
      countNL (asciiList cs pre) = sizeList cs
  | [], pre, _, _ => by
    rw [asciiList, sizeList]
    decide
  | c :: rest, pre, h, hp => by
    rw [asciiList, sizeList, countNL_append]
    have hc : ∀ m ∈ allNodes c.2, m.name ≠ "root" ∧ countNL m.name = 0 := by
      intro m hm
      apply h m
      rw [allNodesList]
      exact List.mem_append_left _ hm
    have hrest : ∀ m ∈ allNodesList rest, m.name ≠ "root" ∧ countNL m.name = 0 := by
      intro m hm
      apply h m
      rw [allNodesList]
      exact List.mem_append_right _ hm
    rw [ascii_countNL c.2 pre rest.isEmpty hc hp, asciiList_countNL rest pre hrest hp]

end

/-- **C7** (amended).  For a tree whose synthetic root is the only node
named `root` and whose node names contain no newline, the rendering prints
exactly one newline-terminated line per node, so the line count equals the
node count excluding the synthetic root.  (A deeper node named `root`
prints no line of its own, as the counterexample shows.) -/
theorem C7_ascii_line_count (t : TreeNode)
    (hroot : t.name = "root")
    (h : ∀ m ∈ allNodesList t.children, m.name ≠ "root" ∧ countNL m.name = 0) :
    countNL (buildAsciiIndex t "" true) = t.size - 1 := by
  obtain ⟨nm, p, ty, sh, u, cs⟩ := t
  simp only [TreeNode.name] at hroot
  simp only [TreeNode.children] at h
  rw [buildAsciiIndex, if_pos hroot]
  rw [asciiList_countNL cs "" h (by decide)]
  rw [TreeNode.size]
  omega

/-- **C7** (witness for the amended theorem). -/
theorem C7_witness :
    (buildTree [itemDF, itemDG]).name = "root" ∧
    (∀ m ∈ allNodesList (buildTree [itemDF, itemDG]).children,
      m.name ≠ "root" ∧ countNL m.name = 0) ∧
    countNL (buildAsciiIndex (buildTree [itemDF, itemDG]) "" true) =
      (buildTree [itemDF, itemDG]).size - 1 :=
  ⟨rfl, by decide, C7_ascii_line_count (buildTree [itemDF, itemDG]) rfl (by decide)⟩

/-! ## Claim C6 -/

/-- **C6** (counterexample).  From the entries `a` (FILE) and `a/b` (FILE),
the proper prefix `a` of the listed FILE path `a/b` exists as a *blob* node,
not a DIRECTORY node, and that FILE node has nonempty `children`: the first
entry created `a` as a blob, and inserting `a/b` then hung a child under
it. -/
theorem C6_counterexample :
    (findNode (buildTree [itemA1, itemAB]) ["a"]).map TreeNode.type = some .blob ∧
    (findNode (buildTree [itemA1, itemAB]) ["a"]).map (fun n => n.children.isEmpty) =
      some false ∧
    splitPath itemAB.path = ["a", "b"] :=
  ⟨by decide, by decide, by decide⟩

theorem insertEntry_nil (item : GitHubItem) (n : TreeNode) (done : List String) :
    insertEntry item n done [] = n := by
  rw [insertEntry]

theorem findNode_nil (t : TreeNode) : findNode t [] = some t := by
  rw [findNode]

theorem insertEntry_cons_found (item : GitHubItem) (nm pp : String) (ty : NType)
    (sh u : String) (cs : List (String × TreeNode)) (done : List String)
    (part : String) (rest : List String) (c : TreeNode)
    (hc : lookupChild cs part = some c) :
    insertEntry item (.mk nm pp ty sh u cs) done (part :: rest) =
      .mk nm pp ty sh u (setChild cs part (insertEntry item c (done ++ [part]) rest)) := by
  rw [insertEntry]
  simp only [hc]

theorem insertEntry_cons_fresh (item : GitHubItem) (nm pp : String) (ty : NType)
    (sh u : String) (cs : List (String × TreeNode)) (done : List String)
    (part : String) (rest : List String)
    (hc : lookupChild cs part = none) :
    insertEntry item (.mk nm pp ty sh u cs) done (part :: rest) =
      .mk nm pp ty sh u (setChild cs part (insertEntry item
        (.mk part (joinPath (done ++ [part]))
          (if rest.isEmpty then item.type else .tree)
          (if rest.isEmpty then item.sha else "")
          (if rest.isEmpty then item.url else "") [])
        (done ++ [part]) rest)) := by
  rw [insertEntry]
  simp only [hc]

/-- After inserting an item, its whole segment path is reachable. -/
theorem insert_exists (item : GitHubItem) :
    ∀ (parts : List String) (n : TreeNode) (done : List String),
      (findNode (insertEntry item n done parts) parts).isSome = true
  | [], n, done => by
    rw [insertEntry_nil, findNode_nil]
    rfl
  | part :: rest, .mk nm pp ty sh u cs, done => by
    cases hc : lookupChild cs part with
    | some c =>
      rw [insertEntry_cons_found item nm pp ty sh u cs done part rest c hc]
      rw [findNode]
      rw [lookupChild_setChild_self]
      exact insert_exists item rest c (done ++ [part])
    | none =>
      rw [insertEntry_cons_fresh item nm pp ty sh u cs done part rest hc]
      rw [findNode]
      rw [lookupChild_setChild_self]
      exact insert_exists item rest _ (done ++ [part])

/-- Inserting an item preserves every already reachable node's position and
scalar fields. -/
theorem insert_mono (item : GitHubItem) :
    ∀ (parts : List String) (n : TreeNode) (done q : List String) (c : TreeNode),
      findNode n q = some c →
      ∃ c', findNode (insertEntry item n done parts) q = some c' ∧
        c'.name = c.name ∧ c'.path = c.path ∧ c'.type = c.type
  | [], n, done, q, c, h => by
    rw [insertEntry_nil]
    exact ⟨c, h, rfl, rfl, rfl⟩
  | part :: rest, .mk nm pp ty sh u cs, done, q, c, h => by
    cases q with
    | nil =>
      rw [findNode_nil] at h
      injection h with h'
      subst h'
      cases hc : lookupChild cs part with
      | some c0 =>
        rw [insertEntry_cons_found item nm pp ty sh u cs done part rest c0 hc]
        exact ⟨_, findNode_nil _, rfl, rfl, rfl⟩
      | none =>
        rw [insertEntry_cons_fresh item nm pp ty sh u cs done part rest hc]
        exact ⟨_, findNode_nil _, rfl, rfl, rfl⟩
    | cons a qs =>
      rw [findNode] at h
      cases ha : lookupChild cs a with
      | none => rw [ha] at h; simp at h
      | some c0 =>
        rw [ha] at h
        simp only at h
        by_cases hap : a = part
        · subst hap
          rw [insertEntry_cons_found item nm pp ty sh u cs done a rest c0 ha]
          rw [findNode, lookupChild_setChild_self]
          exact insert_mono item rest c0 (done ++ [a]) qs c h
        · cases hc : lookupChild cs part with
          | some cPart =>
            rw [insertEntry_cons_found item nm pp ty sh u cs done part rest cPart hc]
            rw [findNode, lookupChild_setChild_ne cs part a _ hap, ha]
            exact ⟨c, h, rfl, rfl, rfl⟩
          | none =>
            rw [insertEntry_cons_fresh item nm pp ty sh u cs done part rest hc]
            rw [findNode, lookupChild_setChild_ne cs part a _ hap, ha]
            exact ⟨c, h, rfl, rfl, rfl⟩

/-- Inserting an item preserves path correctness: fresh intermediate and
final nodes are created with exactly the joined segment path. -/
theorem insert_pathok (item : GitHubItem) :
    ∀ (parts : List String) (n : TreeNode) (done : List String),
      PathOK n done → PathOK (insertEntry item n done parts) done
  | [], n, done, hP => by
    rw [insertEntry_nil]
    exact hP
  | part :: rest, .mk nm pp ty sh u cs, done, hP => by
    cases hc : lookupChild cs part with
    | some c0 =>
      have hc0 : PathOK c0 (done ++ [part]) := by
        intro q' c' hf
        have hfull : findNode (.mk nm pp ty sh u cs) (part :: q') = some c' := by
          rw [findNode, hc]
          exact hf
        have hpath := hP (part :: q') c' hfull
        rw [hpath, List.append_cons]
      have hX := insert_pathok item rest c0 (done ++ [part]) hc0
      rw [insertEntry_cons_found item nm pp ty sh u cs done part rest c0 hc]
      intro q c hf
      cases q with
      | nil =>
        rw [findNode_nil] at hf
        injection hf with h'
        subst h'
        have hn := hP [] _ (findNode_nil _)
        simpa [TreeNode.path] using hn
      | cons a qs =>
        rw [findNode] at hf
        by_cases hap : a = part
        · subst hap
          rw [lookupChild_setChild_self] at hf
          simp only at hf
          have := hX qs c hf
          rw [this]
          simp
        · rw [lookupChild_setChild_ne cs part a _ hap] at hf
          have hn : findNode (.mk nm pp ty sh u cs) (a :: qs) = some c := by
            rw [findNode]
            exact hf
          exact hP (a :: qs) c hn
    | none =>
      have hfresh : PathOK
          (.mk part (joinPath (done ++ [part]))
            (if rest.isEmpty then item.type else .tree)
            (if rest.isEmpty then item.sha else "")
            (if rest.isEmpty then item.url else "") [])
          (done ++ [part]) := by
        intro q' c' hf
        cases q' with
        | nil =>
          rw [findNode_nil] at hf
          injection hf with h'
          subst h'
          simp [TreeNode.path]
        | cons a qs =>
          rw [findNode] at hf
          simp [lookupChild] at hf
      have hX := insert_pathok item rest _ (done ++ [part]) hfresh
      rw [insertEntry_cons_fresh item nm pp ty sh u cs done part rest hc]
      intro q c hf
      cases q with
      | nil =>
        rw [findNode_nil] at hf
        injection hf with h'
        subst h'
        have hn := hP [] _ (findNode_nil _)
        simpa [TreeNode.path] using hn
      | cons a qs =>
        rw [findNode] at hf
        by_cases hap : a = part
        · subst hap
          rw [lookupChild_setChild_self] at hf
          simp only at hf
          have := hX qs c hf
          rw [this]
          simp
        · rw [lookupChild_setChild_ne cs part a _ hap] at hf
          have hn : findNode (.mk nm pp ty sh u cs) (a :: qs) = some c := by
            rw [findNode]
            exact hf
          exact hP (a :: qs) c hn

/-- Inserting an item whose walked segments pass through no existing blob
node preserves "blob nodes are leaves". -/
theorem insert_blobleaf (item : GitHubItem) :
    ∀ (parts : List String) (n : TreeNode) (done : List String),
      BlobLeaf n →
      (∀ q c, q <+: parts → q ≠ parts → findNode n q = some c → c.type ≠ .blob) →
      BlobLeaf (insertEntry item n done parts)
  | [], n, done, hB, _ => by
    rw [insertEntry_nil]
    exact hB
  | part :: rest, .mk nm pp ty sh u cs, done, hB, hNo => by
    have hty : ty ≠ NType.blob := by
      have := hNo [] _ List.nil_prefix (by simp) (findNode_nil _)
      simpa [TreeNode.type] using this
    cases hc : lookupChild cs part with
    | some c0 =>
      have hBc0 : BlobLeaf c0 := by
        intro q' c' hf hb
        exact hB (part :: q') c' (by rw [findNode, hc]; exact hf) hb
      have hNoc0 : ∀ q c, q <+: rest → q ≠ rest → findNode c0 q = some c →
          c.type ≠ .blob := by
        intro q' c' hpre hne hf
        apply hNo (part :: q') c'
        · exact List.cons_prefix_cons.mpr ⟨rfl, hpre⟩
        · simp [hne]
        · rw [findNode, hc]
          exact hf
      have hX := insert_blobleaf item rest c0 (done ++ [part]) hBc0 hNoc0
      rw [insertEntry_cons_found item nm pp ty sh u cs done part rest c0 hc]
      intro q c hf hb
      cases q with
      | nil =>
        rw [findNode_nil] at hf
        injection hf with h'
        subst h'
        exact absurd (by simpa [TreeNode.type] using hb) hty
      | cons a qs =>
        rw [findNode] at hf
        by_cases hap : a = part
        · subst hap
          rw [lookupChild_setChild_self] at hf
          simp only at hf
          exact hX qs c hf hb
        · rw [lookupChild_setChild_ne cs part a _ hap] at hf
          exact hB (a :: qs) c (by rw [findNode]; exact hf) hb
    | none =>
      have hBfresh : BlobLeaf (.mk part (joinPath (done ++ [part]))
          (if rest.isEmpty then item.type else .tree)
          (if rest.isEmpty then item.sha else "")
          (if rest.isEmpty then item.url else "") []) := by
        intro q' c' hf hb
        cases q' with
        | nil =>
          rw [findNode_nil] at hf
          injection hf with h'
          subst h'
          simp [TreeNode.children]
        | cons a qs =>
          rw [findNode] at hf
          simp [lookupChild] at hf
      have hNofresh : ∀ q c, q <+: rest → q ≠ rest →
          findNode (.mk part (joinPath (done ++ [part]))
            (if rest.isEmpty then item.type else .tree)
            (if rest.isEmpty then item.sha else "")
            (if rest.isEmpty then item.url else "") []) q = some c →
          c.type ≠ .blob := by
        intro q' c' hpre hne hf
        cases q' with
        | nil =>
          rw [findNode_nil] at hf
          injection hf with h'
          subst h'
          cases hr : rest with
          | nil =>
            rw [hr] at hne
            exact absurd rfl hne
          | cons r rs =>
            simp [TreeNode.type]
        | cons a qs =>
          rw [findNode] at hf
          simp [lookupChild] at hf
      have hX := insert_blobleaf item rest _ (done ++ [part]) hBfresh hNofresh
      rw [insertEntry_cons_fresh item nm pp ty sh u cs done part rest hc]
      intro q c hf hb
      cases q with
      | nil =>
        rw [findNode_nil] at hf
        injection hf with h'
        subst h'
        exact absurd (by simpa [TreeNode.type] using hb) hty
      | cons a qs =>
        rw [findNode] at hf
        by_cases hap : a = part
        · subst hap
          rw [lookupChild_setChild_self] at hf
          simp only at hf
          exact hX qs c hf hb
        · rw [lookupChild_setChild_ne cs part a _ hap] at hf
          exact hB (a :: qs) c (by rw [findNode]; exact hf) hb

/-- Inserting an item preserves "every blob node comes from a processed blob
entry", the new item being accounted for at its final segment. -/
theorem insert_blobfrom (item : GitHubItem) :
    ∀ (parts : List String) (n : TreeNode) (done : List String) (E : List GitHubItem),
      BlobFrom n done E → done ++ parts = splitPath item.path →
      BlobFrom (insertEntry item n done parts) done (E ++ [item])
  | [], n, done, E, hB, _ => by
    rw [insertEntry_nil]
    intro q c hf hb
    obtain ⟨e, he, h1, h2⟩ := hB q c hf hb
    exact ⟨e, List.mem_append_left _ he, h1, h2⟩
  | part :: rest, .mk nm pp ty sh u cs, done, E, hB, hdone => by
    have hdone' : (done ++ [part]) ++ rest = splitPath item.path := by
      rw [List.append_assoc]
      simpa using hdone
    cases hc : lookupChild cs part with
    | some c0 =>
      have hBc0 : BlobFrom c0 (done ++ [part]) E := by
        intro q' c' hf hb
        obtain ⟨e, he, h1, h2⟩ := hB (part :: q') c' (by rw [findNode, hc]; exact hf) hb
        refine ⟨e, he, h1, ?_⟩
        rw [h2]
        simp
      have hX := insert_blobfrom item rest c0 (done ++ [part]) E hBc0 hdone'
      rw [insertEntry_cons_found item nm pp ty sh u cs done part rest c0 hc]
      intro q c hf hb
      cases q with
      | nil =>
        rw [findNode_nil] at hf
        injection hf with h'
        subst h'
        obtain ⟨e, he, h1, h2⟩ := hB [] _ (findNode_nil _) (by simpa [TreeNode.type] using hb)
        exact ⟨e, List.mem_append_left _ he, h1, h2⟩
      | cons a qs =>
        rw [findNode] at hf
        by_cases hap : a = part
        · subst hap
          rw [lookupChild_setChild_self] at hf
          simp only at hf
          obtain ⟨e, he, h1, h2⟩ := hX qs c hf hb
          refine ⟨e, he, h1, ?_⟩
          rw [h2]
          simp
        · rw [lookupChild_setChild_ne cs part a _ hap] at hf
          obtain ⟨e, he, h1, h2⟩ := hB (a :: qs) c (by rw [findNode]; exact hf) hb
          exact ⟨e, List.mem_append_left _ he, h1, h2⟩
    | none =>
      cases hr : rest with
      | nil =>
        subst hr
        rw [insertEntry_cons_fresh item nm pp ty sh u cs done part [] hc]
        rw [insertEntry_nil]
        intro q c hf hb
        cases q with
        | nil =>
          rw [findNode_nil] at hf
          injection hf with h'
          subst h'
          obtain ⟨e, he, h1, h2⟩ := hB [] _ (findNode_nil _) (by simpa [TreeNode.type] using hb)
          exact ⟨e, List.mem_append_left _ he, h1, h2⟩
        | cons a qs =>
          rw [findNode] at hf
          by_cases hap : a = part
          · subst hap
            rw [lookupChild_setChild_self] at hf
            simp only at hf
            cases qs with
            | nil =>
              rw [findNode_nil] at hf
              injection hf with h'
              subst h'
              refine ⟨item, List.mem_append_right _ (by simp), ?_, ?_⟩
              · simpa [TreeNode.type] using hb
              · exact hdone.symm
            | cons b bs =>
              rw [findNode] at hf
              simp [lookupChild] at hf
          · rw [lookupChild_setChild_ne cs part a _ hap] at hf
            obtain ⟨e, he, h1, h2⟩ := hB (a :: qs) c (by rw [findNode]; exact hf) hb
            exact ⟨e, List.mem_append_left _ he, h1, h2⟩
      | cons r rs =>
        subst hr
        have hBfresh : BlobFrom (.mk part (joinPath (done ++ [part]))
            (if (r :: rs).isEmpty then item.type else .tree)
            (if (r :: rs).isEmpty then item.sha else "")
            (if (r :: rs).isEmpty then item.url else "") []) (done ++ [part]) E := by
          intro q' c' hf hb
          cases q' with
          | nil =>
            rw [findNode_nil] at hf
            injection hf with h'
            subst h'
            simp [TreeNode.type] at hb
          | cons b bs =>
            rw [findNode] at hf
            simp [lookupChild] at hf
        have hX := insert_blobfrom item (r :: rs) _ (done ++ [part]) E hBfresh hdone'
        rw [insertEntry_cons_fresh item nm pp ty sh u cs done part (r :: rs) hc]
        intro q c hf hb
        cases q with
        | nil =>
          rw [findNode_nil] at hf
          injection hf with h'
          subst h'
          obtain ⟨e, he, h1, h2⟩ := hB [] _ (findNode_nil _) (by simpa [TreeNode.type] using hb)
          exact ⟨e, List.mem_append_left _ he, h1, h2⟩
        | cons a qs =>
          rw [findNode] at hf
          by_cases hap : a = part
          · subst hap
            rw [lookupChild_setChild_self] at hf
            simp only at hf
            obtain ⟨e, he, h1, h2⟩ := hX qs c hf hb
            refine ⟨e, he, h1, ?_⟩
            rw [h2]
            simp
          · rw [lookupChild_setChild_ne cs part a _ hap] at hf
            obtain ⟨e, he, h1, h2⟩ := hB (a :: qs) c (by rw [findNode]; exact hf) hb
            exact ⟨e, List.mem_append_left _ he, h1, h2⟩

/-- Reaching a node along `q1 ++ q2` passes through a node at `q1`. -/
theorem findNode_ancestor :
    ∀ (q1 q2 : List String) (t : TreeNode) (c : TreeNode),
      findNode t (q1 ++ q2) = some c → (findNode t q1).isSome = true
  | [], _, t, _, _ => by
    rw [findNode_nil]
    rfl
  | a :: rest, q2, .mk nm pp ty sh u cs, c, h => by
    rw [List.cons_append, findNode] at h
    rw [findNode]
    cases ha : lookupChild cs a with
    | none =>
      rw [ha] at h
      simp at h
    | some c0 =>
      rw [ha] at h
      simp only at h
      exact findNode_ancestor rest q2 c0 c h

/-- The invariants carried through the `buildTree` fold: path correctness,
blob leaves, blob origin among the processed entries, and reachability of
every processed entry's path. -/
theorem buildTree_fold_inv :
    ∀ (rest pre : List GitHubItem) (t0 : TreeNode) (items : List GitHubItem),
      pre ++ rest = items →
      NoBlobPrefix items →
      PathOK t0 [] → BlobLeaf t0 → BlobFrom t0 [] pre →
      (∀ e ∈ pre, (findNode t0 (splitPath e.path)).isSome = true) →
      (PathOK (rest.foldl (fun t item => insertEntry item t [] (splitPath item.path)) t0) [] ∧
       BlobLeaf (rest.foldl (fun t item => insertEntry item t [] (splitPath item.path)) t0) ∧
       BlobFrom (rest.foldl (fun t item => insertEntry item t [] (splitPath item.path)) t0)
         [] items ∧
       (∀ e ∈ items,
         (findNode (rest.foldl (fun t item => insertEntry item t [] (splitPath item.path)) t0)
           (splitPath e.path)).isSome = true))
  | [], pre, t0, items, hpre, _, hP, hBL, hBF, hEx => by
    simp only [List.foldl_nil]
    rw [List.append_nil] at hpre
    subst hpre
    exact ⟨hP, hBL, hBF, hEx⟩
  | item :: rest', pre, t0, items, hpre, hH, hP, hBL, hBF, hEx => by
    simp only [List.foldl_cons]
    have hitem : item ∈ items := by
      rw [← hpre]
      exact List.mem_append_right _ (by simp)
    have hNo : ∀ q c, q <+: splitPath item.path → q ≠ splitPath item.path →
        findNode t0 q = some c → c.type ≠ .blob := by
      intro q c hq hne hf hb
      obtain ⟨e, he, hbE, hsplit⟩ := hBF q c hf hb
      have hsplit' : splitPath e.path = q := by simpa using hsplit
      have heItems : e ∈ items := by
        rw [← hpre]
        exact List.mem_append_left _ he
      have hq' : splitPath e.path <+: splitPath item.path := by
        rw [hsplit']
        exact hq
      have hEq := hH e heItems item hitem hbE hq'
      exact hne (hsplit'.symm.trans hEq)
    have hP' := insert_pathok item (splitPath item.path) t0 [] hP
    have hBL' := insert_blobleaf item (splitPath item.path) t0 [] hBL hNo
    have hBF' := insert_blobfrom item (splitPath item.path) t0 [] pre hBF rfl
    have hEx' : ∀ e ∈ pre ++ [item],
        (findNode (insertEntry item t0 [] (splitPath item.path))
          (splitPath e.path)).isSome = true := by
      intro e he
      rcases List.mem_append.mp he with he | he
      · obtain ⟨c, hcf⟩ := Option.isSome_iff_exists.mp (hEx e he)
        obtain ⟨c', hcf', _⟩ := insert_mono item (splitPath item.path) t0 []
          (splitPath e.path) c hcf
        rw [hcf']
        rfl
      · have he' : e = item := by simpa using he
        rw [he']
        exact insert_exists item (splitPath item.path) t0 []
    exact buildTree_fold_inv rest' (pre ++ [item])
      (insertEntry item t0 [] (splitPath item.path)) items
      (by rw [List.append_assoc]; simpa using hpre) hH hP' hBL' hBF' hEx'

theorem rootNode_pathok : PathOK rootNode [] := by
  intro q c h
  cases q with
  | nil =>
    rw [findNode_nil] at h
    injection h with h'
    subst h'
    rfl
  | cons a qs =>
    simp [rootNode, findNode, lookupChild] at h

theorem rootNode_blobleaf : BlobLeaf rootNode := by
  intro q c h hb
  cases q with
  | nil =>
    rw [findNode_nil] at h
    injection h with h'
    subst h'
    simp [rootNode, TreeNode.type] at hb
  | cons a qs =>
    simp [rootNode, findNode, lookupChild] at h

theorem rootNode_blobfrom : BlobFrom rootNode [] [] := by
  intro q c h hb
  cases q with
  | nil =>
    rw [findNode_nil] at h
    injection h with h'
    subst h'
    simp [rootNode, TreeNode.type] at hb
  | cons a qs =>
    simp [rootNode, findNode, lookupChild] at h

/-- **C6** (amended).  Provided no FILE entry's segment path is a proper
prefix of another entry's segment path, the built tree satisfies the
claimed invariants: every listed FILE path is reachable at exactly that
path (the node's `path` field is the `/`-joined segments), every proper
nonempty prefix of a listed FILE path is a DIRECTORY node with the joined
prefix as its path, and every FILE (blob) node has empty children.
Without the proviso these fail, as the counterexample shows. -/
theorem C6_build_invariants (items : List GitHubItem) (hH : NoBlobPrefix items) :
    (∀ e ∈ items, e.type = .blob →
      ∃ n, findNode (buildTree items) (splitPath e.path) = some n ∧
        n.path = joinPath (splitPath e.path)) ∧
    (∀ e ∈ items, e.type = .blob → ∀ q, q ≠ [] → q <+: splitPath e.path →
      q ≠ splitPath e.path →
      ∃ c, findNode (buildTree items) q = some c ∧ c.type = .tree ∧
        c.path = joinPath q) ∧
    (∀ q c, findNode (buildTree items) q = some c → c.type = .blob →
      c.children = []) := by
  have hfold := buildTree_fold_inv items [] rootNode items rfl hH rootNode_pathok
    rootNode_blobleaf rootNode_blobfrom (by intro e he; simp at he)
  obtain ⟨hP, hBL, hBF, hEx⟩ := hfold
  have hP2 : PathOK (buildTree items) [] := hP
  have hBL2 : BlobLeaf (buildTree items) := hBL
  have hBF2 : BlobFrom (buildTree items) [] items := hBF
  have hEx2 : ∀ e ∈ items, (findNode (buildTree items) (splitPath e.path)).isSome = true := hEx
  refine ⟨?_, ?_, hBL2⟩
  · intro e he _
    obtain ⟨n, hn⟩ := Option.isSome_iff_exists.mp (hEx2 e he)
    refine ⟨n, hn, ?_⟩
    have := hP2 (splitPath e.path) n hn
    simpa using this
  · intro e he hb q hqne hq hqneq
    obtain ⟨q2, hq2⟩ := hq
    obtain ⟨cfull, hcfull⟩ := Option.isSome_iff_exists.mp (hEx2 e he)
    rw [← hq2] at hcfull
    obtain ⟨c, hc⟩ := Option.isSome_iff_exists.mp (findNode_ancestor q q2 _ cfull hcfull)
    refine ⟨c, hc, ?_, ?_⟩
    · cases hct : c.type with
      | tree => rfl
      | blob =>
        exfalso
        obtain ⟨e', he', hbe', hsplit⟩ := hBF2 q c hc hct
        have hsplit' : splitPath e'.path = q := by simpa using hsplit
        have hq' : splitPath e'.path <+: splitPath e.path := by
          rw [hsplit']
          exact ⟨q2, hq2⟩
        have hEq := hH e' he' e he hbe' hq'
        exact hqneq (hsplit'.symm.trans hEq)
    · have := hP2 q c hc
      simpa using this

/-- **C6** (witness for the amended theorem). -/
theorem C6_witness :
    NoBlobPrefix [itemDF, itemDG, itemD] ∧
    ((∀ e ∈ [itemDF, itemDG, itemD], e.type = .blob →
      ∃ n, findNode (buildTree [itemDF, itemDG, itemD]) (splitPath e.path) = some n ∧
        n.path = joinPath (splitPath e.path)) ∧
    (∀ e ∈ [itemDF, itemDG, itemD], e.type = .blob → ∀ q, q ≠ [] →
      q <+: splitPath e.path → q ≠ splitPath e.path →
      ∃ c, findNode (buildTree [itemDF, itemDG, itemD]) q = some c ∧ c.type = .tree ∧
        c.path = joinPath q) ∧
    (∀ q c, findNode (buildTree [itemDF, itemDG, itemD]) q = some c → c.type = .blob →
      c.children = [])) := by
  have hH : NoBlobPrefix [itemDF, itemDG, itemD] := by
    unfold NoBlobPrefix
    decide
  exact ⟨hH, C6_build_invariants [itemDF, itemDG, itemD] hH⟩
